import Mathlib

/-!
Verification of the markdown-to-PDF resume builder core
(`src/markdown2pdf_resume_builder/resume_builder.py`).

Python strings are embedded as `List Char`; each helper mirrors the
corresponding Python string operation.  The builder's methods
(`_estimate_content_length`, `_get_dynamic_sizing`, `_parse_markdown_content`,
`_clean_text`, `_reorder_sections`, `_build_pdf_content`,
`_format_skills_section`, `_format_education_section`, `_format_entry`,
`generate_pdf`) become pure Lean functions; the ReportLab layout engine is an
external collaborator, so flowables are modelled as a data type recording the
text and style handed to it, and `generate_pdf` acts on an explicit
association-list file system.
-/

namespace MD2PDF

/-- Python `str` embedded as a list of characters. -/
abbrev Str := List Char

/-- Characters of a Lean string literal, used to write embedded Python strings. -/
def str (s : String) : Str := s.data

/-- Whitespace test matching the regex class and `str.strip` (ASCII range). -/
def isWS (c : Char) : Bool :=
  c = ' ' ∨ c = '\t' ∨ c = '\n' ∨ c = '\r' ∨ c = Char.ofNat 11 ∨ c = Char.ofNat 12

/-- Characters removed by `re.sub(r'[#*\-\[\]()]', '', ...)`. -/
def isMdPunct (c : Char) : Bool :=
  c = '#' ∨ c = '*' ∨ c = '-' ∨ c = '[' ∨ c = ']' ∨ c = '(' ∨ c = ')'

/-- The backquote character (inline-code delimiter). -/
def btick : Char := Char.ofNat 96

/-- Python `s.startswith(p)`. -/
def pyStartsWith : Str → Str → Bool
  | _, [] => true
  | [], _ :: _ => false
  | c :: s, p0 :: p => if p0 = c then pyStartsWith s p else false

/-- Python `s.endswith(p)`. -/
def pyEndsWith (s p : Str) : Bool := pyStartsWith s.reverse p.reverse

/-- Python `needle in hay` (substring test). -/
def containsSub (needle : Str) : Str → Bool
  | [] => pyStartsWith [] needle
  | h :: t => pyStartsWith (h :: t) needle || containsSub needle t

/-- Python `c in s` for a single character. -/
def hasChar (c : Char) : Str → Bool
  | [] => false
  | h :: t => if h = c then true else hasChar c t

/-- Drop characters satisfying `p` from both ends (Python `str.strip(chars)`). -/
def pyStripP (p : Char → Bool) (l : Str) : Str :=
  ((l.dropWhile p).reverse.dropWhile p).reverse

/-- Python `str.strip()` (whitespace on both ends). -/
def pyStrip (l : Str) : Str := pyStripP isWS l

/-- Python `str.strip('*')`. -/
def stripStars (l : Str) : Str := pyStripP (fun c => c = '*') l

/-- Python `str.lower()`. -/
def lower (l : Str) : Str := l.map Char.toLower

/-- Python `str.upper()`. -/
def upper (l : Str) : Str := l.map Char.toUpper

/-- Python slice `l[2:-2]`. -/
def slice22 (l : Str) : Str := (l.drop 2).take (l.length - 4)

/-- Python slice `l[3:-4]` (used to peel a `<b>...</b>` wrapper). -/
def slice34 (l : Str) : Str := (l.drop 3).take (l.length - 7)

/-- Python `content.split('\n')`. -/
def splitOnNl : Str → List Str
  | [] => [[]]
  | c :: t =>
      if c = '\n' then [] :: splitOnNl t
      else match splitOnNl t with
        | [] => [[c]]
        | h :: r => (c :: h) :: r

/-- Length of `dropWhile` never exceeds the input length. -/
theorem length_dropWhile_le' (p : Char → Bool) (l : List Char) :
    (l.dropWhile p).length ≤ l.length := by
  induction l with
  | nil => simp
  | cons c t ih => by_cases h : p c <;> simp [List.dropWhile_cons, h] <;> omega

/-- Collapse of whitespace runs (`re.sub(r'\s+', ' ', ...)`): each maximal
run of whitespace characters becomes a single space. -/
def collapseWS : Str → Str
  | [] => []
  | c :: t =>
      if isWS c then ' ' :: collapseWS (t.dropWhile isWS) else c :: collapseWS t
termination_by l => l.length
decreasing_by
  · simp only [List.length_cons]
    have := length_dropWhile_le' isWS t
    omega
  · simp

/-- Source `_estimate_content_length`: strip Markdown punctuation, collapse
whitespace runs, trim, and take the character count. -/
def estimate_content_length (content : Str) : Nat :=
  (pyStrip (collapseWS (content.filter (fun c => ¬ isMdPunct c)))).length

/-- One-page scale step function from `_get_dynamic_sizing`. -/
def one_page_scale (content_length : Nat) : ℚ :=
  if content_length ≤ 2000 then 1
  else if content_length ≤ 2500 then 0.95
  else if content_length ≤ 3000 then 0.9
  else if content_length ≤ 3500 then 0.85
  else if content_length ≤ 4000 then 0.75
  else if content_length ≤ 4500 then 0.65
  else if content_length ≤ 5000 then 0.6
  else 0.55

/-- Record returned by `_get_dynamic_sizing`. -/
structure SizingParams where
  base_size : ℚ
  name_size : ℚ
  section_size : ℚ
  small_size : ℚ
deriving DecidableEq, Repr

/-- Source `_get_dynamic_sizing`. -/
def get_dynamic_sizing (one_page : Bool) (content_length : Nat) : SizingParams :=
  if one_page then
    let scale := one_page_scale content_length
    ⟨9.5 * scale, 16 * scale, 11 * scale, 8 * scale⟩
  else ⟨11, 20, 14, 9⟩

/-! ## Inline markup translator (`_clean_text`)

Each `re.sub` pass is embedded as a left-to-right scan (`subst`) with a
deterministic matcher for its pattern: every pattern here is a literal
prefix, a maximal run of characters excluding the following delimiter, and a
literal suffix, so the regex engine's behaviour is exactly reproduced.  A
matcher returns the replacement string and `k` with `k + 1` consumed
characters. -/

/-- Left-to-right scan-and-replace: at each position try the matcher; on a
match emit the replacement and continue after the consumed region, otherwise
keep the character (the behaviour of `re.sub`). -/
def subst (m : Str → Option (Str × Nat)) : Str → Str
  | [] => []
  | c :: rest =>
      match m (c :: rest) with
      | some (repl, k) => repl ++ subst m (rest.drop k)
      | none => c :: subst m rest
termination_by s => s.length
decreasing_by
  all_goals simp only [List.length_cons, List.length_drop]
  all_goals omega

/-- Link colour chosen by theme in `_clean_text`. -/
def linkColor (dark : Bool) : Str := if dark then str "cyan" else str "blue"

/-- Replacement template of the link substitution. -/
def linkRepl (dark : Bool) (label url : Str) : Str :=
  str "<link href=\"" ++ url ++ str "\" color=\"" ++ linkColor dark ++
    str "\"><u>" ++ label ++ str "</u></link>"

/-- Matcher for `\[([^\]]+)\]\(([^)]+)\)`: the label is the maximal run
without `]` (then `](` is required), the url the maximal run without `)`
(then `)` is required); `k + 1` characters are consumed. -/
def matchLink (dark : Bool) : Str → Option (Str × Nat)
  | c :: rest =>
      if c = '[' then
        if (rest.takeWhile (fun x => x ≠ ']')).isEmpty then none
        else
          match rest.dropWhile (fun x => x ≠ ']') with
          | c1 :: c2 :: rest2 =>
              if c1 = ']' ∧ c2 = '(' then
                if (rest2.takeWhile (fun x => x ≠ ')')).isEmpty then none
                else
                  match rest2.dropWhile (fun x => x ≠ ')') with
                  | c3 :: _ =>
                      if c3 = ')' then
                        some (linkRepl dark (rest.takeWhile (fun x => x ≠ ']'))
                            (rest2.takeWhile (fun x => x ≠ ')')),
                          (rest.takeWhile (fun x => x ≠ ']')).length +
                            (rest2.takeWhile (fun x => x ≠ ')')).length + 3)
                      else none
                  | [] => none
              else none
          | _ => none
      else none
  | [] => none

/-- Matcher for `_\*\*([^*]+)\*\*_`. -/
def matchBI1 : Str → Option (Str × Nat)
  | c1 :: c2 :: c3 :: rest =>
      if c1 = '_' ∧ c2 = '*' ∧ c3 = '*' then
        if (rest.takeWhile (fun x => x ≠ '*')).isEmpty then none
        else
          match rest.dropWhile (fun x => x ≠ '*') with
          | d1 :: d2 :: d3 :: _ =>
              if d1 = '*' ∧ d2 = '*' ∧ d3 = '_' then
                some (str "<b><i>" ++ rest.takeWhile (fun x => x ≠ '*') ++ str "</i></b>",
                  (rest.takeWhile (fun x => x ≠ '*')).length + 5)
              else none
          | _ => none
      else none
  | _ => none

/-- Matcher for `\*\*_([^_]+)_\*\*`. -/
def matchBI2 : Str → Option (Str × Nat)
  | c1 :: c2 :: c3 :: rest =>
      if c1 = '*' ∧ c2 = '*' ∧ c3 = '_' then
        if (rest.takeWhile (fun x => x ≠ '_')).isEmpty then none
        else
          match rest.dropWhile (fun x => x ≠ '_') with
          | d1 :: d2 :: d3 :: _ =>
              if d1 = '_' ∧ d2 = '*' ∧ d3 = '*' then
                some (str "<b><i>" ++ rest.takeWhile (fun x => x ≠ '_') ++ str "</i></b>",
                  (rest.takeWhile (fun x => x ≠ '_')).length + 5)
              else none
          | _ => none
      else none
  | _ => none

/-- Matcher for `\*\*([^*]+)\*\*`. -/
def matchBold : Str → Option (Str × Nat)
  | c1 :: c2 :: rest =>
      if c1 = '*' ∧ c2 = '*' then
        if (rest.takeWhile (fun x => x ≠ '*')).isEmpty then none
        else
          match rest.dropWhile (fun x => x ≠ '*') with
          | d1 :: d2 :: _ =>
              if d1 = '*' ∧ d2 = '*' then
                some (str "<b>" ++ rest.takeWhile (fun x => x ≠ '*') ++ str "</b>",
                  (rest.takeWhile (fun x => x ≠ '*')).length + 3)
              else none
          | _ => none
      else none
  | _ => none

/-- Matcher for a single-character delimiter pair `d([^d]+)d`
(italic underscores, italic asterisks, inline code). -/
def matchDelim (d : Char) (pre post : Str) : Str → Option (Str × Nat)
  | c :: rest =>
      if c = d then
        if (rest.takeWhile (fun x => x ≠ d)).isEmpty then none
        else
          match rest.dropWhile (fun x => x ≠ d) with
          | c2 :: _ =>
              if c2 = d then
                some (pre ++ rest.takeWhile (fun x => x ≠ d) ++ post,
                  (rest.takeWhile (fun x => x ≠ d)).length + 1)
              else none
          | [] => none
      else none
  | [] => none

/-- Source `_clean_text`: the seven substitutions in source order. -/
def clean_text (dark : Bool) (text : Str) : Str :=
  let t1 := subst (matchLink dark) text
  let t2 := subst matchBI1 t1
  let t3 := subst matchBI2 t2
  let t4 := subst matchBold t3
  let t5 := subst (matchDelim '_' (str "<i>") (str "</i>")) t4
  let t6 := subst (matchDelim '*' (str "<i>") (str "</i>")) t5
  subst (matchDelim btick (str "<font name=\"Courier\">") (str "</font>")) t6

/-! ## Section parser (`_parse_markdown_content`) -/

/-- Kind tag of a parsed block (source dict key `'type'`: `'name'` or
`'section'`). -/
inductive BlockType
  | name
  | sec
deriving DecidableEq, Repr

/-- A parsed block: the source dict `{'type', 'title', 'content'}`. -/
structure Block where
  type : BlockType
  title : Str
  content : List Str
deriving DecidableEq, Repr

/-- Emit the block in progress, if any (`if current_section: ... append`). -/
def flushBlock : Option (BlockType × Str) → List Str → List Block
  | none, _ => []
  | some (t, ti), cc => [⟨t, ti, cc⟩]

/-- The parsing loop of `_parse_markdown_content` over raw lines, carrying
`current_section` and `current_content`. -/
def parse_go : List Str → Option (BlockType × Str) → List Str → List Block
  | [], cur, cc => flushBlock cur cc
  | l :: rest, cur, cc =>
      let l' := pyStrip l
      if l'.isEmpty then parse_go rest cur cc
      else if pyStartsWith l' (str "---") || l' = str "---" then parse_go rest cur cc
      else if pyStartsWith l' (str "# ") then
        flushBlock cur cc ++ parse_go rest (some (.name, pyStrip (l'.drop 2))) []
      else if pyStartsWith l' (str "## ") then
        flushBlock cur cc ++ parse_go rest (some (.sec, pyStrip (l'.drop 3))) []
      else parse_go rest cur (cc ++ [l'])

/-- Source `_parse_markdown_content`. -/
def parse_markdown_content (content : Str) : List Block :=
  parse_go (splitOnNl (pyStrip content)) none []

/-- The line-filtering part of the parsing loop in isolation: trim, drop
blank lines and lines the loop skips with `continue`. -/
def filter_lines : List Str → List Str
  | [] => []
  | l :: rest =>
      let l' := pyStrip l
      if l'.isEmpty then filter_lines rest
      else if pyStartsWith l' (str "---") || l' = str "---" then filter_lines rest
      else l' :: filter_lines rest

/-! ## Section reordering (`_reorder_sections`) -/

/-- Section category from the title-keyword chain in `_reorder_sections`. -/
inductive Category
  | education
  | experience
  | skills
  | projects
  | courses
  | other
deriving DecidableEq, Repr

/-- Case-insensitive keyword categorization of a section title
(first match wins, in source order). -/
def categorize (title : Str) : Category :=
  let t := lower title
  if containsSub (str "education") t then .education
  else if containsSub (str "experience") t || containsSub (str "work") t then .experience
  else if containsSub (str "skill") t then .skills
  else if containsSub (str "project") t then .projects
  else if containsSub (str "course") t then .courses
  else .other

/-- The `section_map` dict of `_reorder_sections`. -/
structure SectionMap where
  education : Option Block
  experience : Option Block
  skills : Option Block
  projects : Option Block
  courses : Option Block
deriving DecidableEq, Repr

/-- Category slot lookup in the section map. -/
def SectionMap.get (m : SectionMap) : Category → Option Block
  | .education => m.education
  | .experience => m.experience
  | .skills => m.skills
  | .projects => m.projects
  | .courses => m.courses
  | .other => none

/-- Accumulator of the categorization loop of `_reorder_sections`. -/
structure ReorderAcc where
  nameSection : Option Block
  map : SectionMap
  others : List Block
deriving DecidableEq, Repr

/-- One step of the categorization loop (dict assignment is last-wins). -/
def reorderStep (acc : ReorderAcc) (s : Block) : ReorderAcc :=
  match s.type with
  | .name => { acc with nameSection := some s }
  | .sec =>
      match categorize s.title with
      | .education => { acc with map := { acc.map with education := some s } }
      | .experience => { acc with map := { acc.map with experience := some s } }
      | .skills => { acc with map := { acc.map with skills := some s } }
      | .projects => { acc with map := { acc.map with projects := some s } }
      | .courses => { acc with map := { acc.map with courses := some s } }
      | .other => { acc with others := acc.others ++ [s] }

/-- Fixed priority order used when rebuilding the section list. -/
def section_priority : List Category :=
  [.experience, .education, .projects, .skills, .courses]

/-- Source `_reorder_sections`. -/
def reorder_sections (sections : List Block) : List Block :=
  let acc := sections.foldl reorderStep ⟨none, ⟨none, none, none, none, none⟩, []⟩
  acc.nameSection.toList ++ section_priority.filterMap acc.map.get ++ acc.others

/-! ## Header extraction and entry segmentation (`_build_pdf_content`) -/

/-- Bold-wrapped test of the header loop
(`line.startswith('**') and line.endswith('**')`). -/
def isBoldLine (l : Str) : Bool :=
  pyStartsWith l (str "**") && pyEndsWith l (str "**")

/-- Contact heuristics of the header loop. -/
def isContactLine (l : Str) : Bool :=
  hasChar '@' l || containsSub (str "linkedin") (lower l) ||
    containsSub (str "http") (lower l) || hasChar '(' l

/-- The header-content loop of `_build_pdf_content`, carrying `title` and
`contact_lines`. -/
def headerGo : List Str → Str → List Str → Str × List Str
  | [], t, cs => (t, cs)
  | l :: rest, t, cs =>
      if isBoldLine l then headerGo rest (slice22 l) cs
      else if isContactLine l then headerGo rest t (cs ++ [l])
      else headerGo rest t cs

/-- Title and contact lines extracted from a name block's content. -/
def header_extract (content : List Str) : Str × List Str :=
  headerGo content (str "") []

/-- Fragment kinds of the entry segmenter (source tuple tags). -/
inductive FragKind
  | company
  | date_location
  | bullet
  | content
deriving DecidableEq, Repr

/-- A typed fragment of an entry. -/
structure Frag where
  kind : FragKind
  text : Str
deriving DecidableEq, Repr

/-- Per-line classification of the entry segmenter, in source precedence
order. -/
def classify_line (l : Str) : Option Frag :=
  if pyStartsWith l (str "**") && !pyStartsWith l (str "***") && pyEndsWith l (str "**") then
    some ⟨.company, stripStars l⟩
  else if pyStartsWith l (str "*") && hasChar '|' l && pyEndsWith l (str "*") then
    some ⟨.date_location, pyStrip (stripStars l)⟩
  else if pyStartsWith l (str "- ") then some ⟨.bullet, l.drop 2⟩
  else if !l.isEmpty && !pyStartsWith l (str "#") then some ⟨.content, l⟩
  else none

/-- The entry-segmentation loop of `_build_pdf_content`, carrying
`current_entry`. -/
def segmentGo : List Str → List Frag → List (List Frag)
  | [], cur => if cur.isEmpty then [] else [cur]
  | l :: rest, cur =>
      match classify_line l with
      | some f =>
          if f.kind = .company then
            if cur.isEmpty then segmentGo rest [f]
            else cur :: segmentGo rest [f]
          else segmentGo rest (cur ++ [f])
      | none => segmentGo rest cur

/-- Entries of a section's content lines. -/
def segment_entries (lines : List Str) : List (List Frag) := segmentGo lines []

/-! ## Renderable blocks and formatters -/

/-- A block handed to the external layout engine. -/
inductive Flowable
  | para (text : Str) (style : Str)
  | spacer (width height : ℚ)
  | headerTable (owner : Str) (title : Str) (contact_lines : List Str)
  | eduTable (cells : List (List (Str × Str)))
  | keepTogether (items : List Flowable)

/-- One fragment of `_format_entry`. -/
def format_entry_frag (dark : Bool) (f : Frag) : Flowable :=
  let clean := clean_text dark f.text
  match f.kind with
  | .company => .para clean (str "Company")
  | .date_location => .para clean (str "DateLocation")
  | .bullet => .para (str "â€¢ " ++ clean) (str "Body")
  | .content =>
      if pyStartsWith clean (str "<b>") && pyEndsWith clean (str "</b>") &&
          containsSub (str "<link href=") clean then
        .para (slice34 clean) (str "JobTitle")
      else if pyStartsWith clean (str "<b>") && pyEndsWith clean (str "</b>") then
        .para (slice34 clean) (str "JobTitle")
      else .para clean (str "Skills")

/-- Source `_format_entry`. -/
def format_entry (one_page dark : Bool) (entry : List Frag) : List Flowable :=
  let formatted := entry.map (format_entry_frag dark)
  if formatted.isEmpty then [.keepTogether formatted]
  else [.keepTogether (formatted ++ [.spacer 1 (if one_page then 2 else 6)])]

/-- Python truthiness of the `current_category` variable: `None` and the
empty string are both falsy. -/
def pyTruthy : Option Str → Bool
  | none => false
  | some s => !s.isEmpty

/-- The loop of `_format_skills_section`, carrying `current_category`. -/
def skillsGo (dark : Bool) : List Str → Option Str → List Flowable
  | [], _ => []
  | l :: rest, curCat =>
      let cl := clean_text dark l
      if pyStartsWith cl (str "**") && pyEndsWith cl (str "**") then
        let category := slice22 cl
        (if pyTruthy curCat then [Flowable.spacer 1 4] else []) ++
          Flowable.para category (str "SkillCategory") :: skillsGo dark rest (some category)
      else Flowable.para cl (str "Skills") :: skillsGo dark rest curCat

/-- Source `_format_skills_section`. -/
def format_skills_section (dark : Bool) (content : List Str) : List Flowable :=
  skillsGo dark content none

/-- Fragment kinds of the education formatter (source tuple tags). -/
inductive EduKind
  | institution_degree
  | date_location
deriving DecidableEq, Repr

/-- The entry-collection loop of `_format_education_section`. -/
def eduCollect (dark : Bool) : List Str → List (EduKind × Str) → List (List (EduKind × Str))
  | [], cur => if cur.isEmpty then [] else [cur]
  | l :: rest, cur =>
      let cl := clean_text dark l
      if pyStartsWith cl (str "**") && pyEndsWith cl (str "**") then
        if cur.isEmpty then eduCollect dark rest [(.institution_degree, cl)]
        else cur :: eduCollect dark rest [(.institution_degree, cl)]
      else if !cl.isEmpty && !pyStartsWith cl (str "#") && !pyStartsWith cl (str "**") then
        eduCollect dark rest (cur ++ [(.date_location, cl)])
      else eduCollect dark rest cur

/-- Last value of a given kind in an education entry (the source loop
overwrites, so the last assignment wins; default empty). -/
def lastOfKind (k : EduKind) (e : List (EduKind × Str)) : Str :=
  e.foldl (fun acc p => if p.1 = k then p.2 else acc) (str "")

/-- Source `_format_education_section`. -/
def format_education_section (dark : Bool) (content : List Str) : List Flowable :=
  let entries := eduCollect dark content []
  match entries with
  | e1 :: e2 :: _ =>
      [Flowable.eduTable
        [[(lastOfKind .institution_degree e1, str "Company"),
          (lastOfKind .institution_degree e2, str "Company")],
         [(lastOfKind .date_location e1, str "DateLocation"),
          (lastOfKind .date_location e2, str "DateLocation")]]]
  | _ =>
      entries.flatMap (fun e =>
        e.map (fun p =>
          Flowable.para p.2
            (if p.1 = EduKind.institution_degree then str "Company" else str "DateLocation")) ++
          [Flowable.spacer 1 4])

/-- Body of one non-name section in `_build_pdf_content`. -/
def build_section_body (one_page dark : Bool) (b : Block) : List Flowable :=
  if containsSub (str "skill") (lower b.title) then format_skills_section dark b.content
  else if containsSub (str "education") (lower b.title) then
    format_education_section dark b.content
  else (segment_entries b.content).flatMap (format_entry one_page dark)

/-- Source `_build_pdf_content`. -/
def build_pdf_content (one_page dark : Bool) (sections : List Block) : List Flowable :=
  (reorder_sections sections).flatMap (fun b =>
    match b.type with
    | .name =>
        let tc := header_extract b.content
        [Flowable.headerTable b.title tc.1 tc.2,
         Flowable.spacer 1 (if one_page then 3 else 15)]
    | .sec =>
        Flowable.para (upper b.title) (str "SectionHeader") ::
          build_section_body one_page dark b ++
            [Flowable.spacer 1 (if one_page then 2 else 10)])

/-! ## `generate_pdf` over an explicit file system -/

/-- A file: either input text or a generated document (the sizing parameters
and story handed to the external layout engine). -/
inductive FileData
  | textFile (content : Str)
  | pdfFile (sizing : SizingParams) (story : List Flowable)

/-- Association-list file-system lookup (`Path.exists` plus `open().read()`). -/
def fsLookup : List (Str × FileData) → Str → Option FileData
  | [], _ => none
  | (p, d) :: rest, q => if p = q then some d else fsLookup rest q

/-- Text content read from a file; reading a generated binary document back
as markdown is out of the modelled scope and yields the empty text. -/
def fileText : FileData → Str
  | .textFile c => c
  | .pdfFile _ _ => []

/-- Python `Path.stem` (best-effort; its value is irrelevant to the claims). -/
def pathStem (p : Str) : Str :=
  let base := (p.reverse.takeWhile (fun c => c ≠ '/')).reverse
  if hasChar '.' base then ((base.reverse.dropWhile (fun c => c ≠ '.')).reverse).dropLast
  else base

/-- Builder configuration relevant to `generate_pdf`. -/
structure Config where
  one_page : Bool
  output_dir : Str
  dark : Bool

/-- Source `generate_pdf`: a missing input fails before any parsing, sizing
or output write; otherwise the parsed, sized and built document is written
under the derived output path.  The returned file system makes the write (or
its absence) explicit. -/
def generate_pdf (cfg : Config) (fs : List (Str × FileData)) (markdown_file : Str)
    (output_filename : Option Str) : List (Str × FileData) × Except Str Str :=
  match fsLookup fs markdown_file with
  | none => (fs, Except.error (str "Markdown file not found: " ++ markdown_file))
  | some fd =>
      let markdown_content := fileText fd
      let content_length := estimate_content_length markdown_content
      let sizing := get_dynamic_sizing cfg.one_page content_length
      let sections := parse_markdown_content markdown_content
      let outName := output_filename.getD
        (pathStem markdown_file ++
          (if cfg.one_page then str "_one_page" else str "_full") ++ str ".pdf")
      let outPath := cfg.output_dir ++ str "/" ++ outName
      let story := build_pdf_content cfg.one_page cfg.dark sections
      ((outPath, FileData.pdfFile sizing story) :: fs, Except.ok outPath)

/-! ## Basic lemmas -/

/-- Unfolding `subst` when the matcher fails at the current position. -/
theorem subst_cons_none {m : Str → Option (Str × Nat)} {c : Char} {rest : Str}
    (h : m (c :: rest) = none) : subst m (c :: rest) = c :: subst m rest := by
  rw [subst, h]

/-- Unfolding `subst` when the matcher succeeds at the current position. -/
theorem subst_cons_some {m : Str → Option (Str × Nat)} {c : Char} {rest repl : Str} {k : Nat}
    (h : m (c :: rest) = some (repl, k)) :
    subst m (c :: rest) = repl ++ subst m (rest.drop k) := by
  rw [subst, h]

/-! ## Claim C5: one-page dynamic sizing -/

/-- The eight scale values, numerators over 20. -/
def scale20 (d : Nat) : Nat :=
  if d ≤ 2000 then 20 else if d ≤ 2500 then 19 else if d ≤ 3000 then 18
  else if d ≤ 3500 then 17 else if d ≤ 4000 then 15 else if d ≤ 4500 then 13
  else if d ≤ 5000 then 12 else 11

/-- The one-page scale as a quotient of naturals. -/
theorem one_page_scale_eq (d : Nat) : one_page_scale d = (scale20 d : ℚ) / 20 := by
  simp only [one_page_scale, scale20]
  split_ifs <;> norm_num

set_option maxHeartbeats 1000000 in
/-- The one-page scale never increases with density. -/
theorem one_page_scale_antitone {d1 d2 : Nat} (h : d1 ≤ d2) :
    one_page_scale d2 ≤ one_page_scale d1 := by
  rw [one_page_scale_eq, one_page_scale_eq]
  have h20 : scale20 d2 ≤ scale20 d1 := by
    simp only [scale20]
    split_ifs <;> omega
  have hc : (scale20 d2 : ℚ) ≤ (scale20 d1 : ℚ) := by exact_mod_cast h20
  linarith

/-- Claim C5 (confirmed): in one-page mode the dynamic sizing scale factor is
a monotonically non-increasing step function of density (`d1 < d2` implies
`scale d1 ≥ scale d2`), and each of the four returned sizes equals its fixed
base value (9.5, 16, 11, 8) multiplied by that single scale, so each size is
also non-increasing in density. -/
theorem one_page_sizing_monotone (d1 d2 : Nat) (h : d1 < d2) :
    one_page_scale d2 ≤ one_page_scale d1 ∧
    (∀ d, get_dynamic_sizing true d =
      ⟨9.5 * one_page_scale d, 16 * one_page_scale d,
       11 * one_page_scale d, 8 * one_page_scale d⟩) ∧
    (get_dynamic_sizing true d2).base_size ≤ (get_dynamic_sizing true d1).base_size ∧
    (get_dynamic_sizing true d2).name_size ≤ (get_dynamic_sizing true d1).name_size ∧
    (get_dynamic_sizing true d2).section_size ≤ (get_dynamic_sizing true d1).section_size ∧
    (get_dynamic_sizing true d2).small_size ≤ (get_dynamic_sizing true d1).small_size := by
  have hs := one_page_scale_antitone (Nat.le_of_lt h)
  refine ⟨hs, fun d => rfl, ?_, ?_, ?_, ?_⟩
  · exact mul_le_mul_of_nonneg_left hs (by norm_num)
  · exact mul_le_mul_of_nonneg_left hs (by norm_num)
  · exact mul_le_mul_of_nonneg_left hs (by norm_num)
  · exact mul_le_mul_of_nonneg_left hs (by norm_num)

/-- Witness for C5 at densities 1500 and 3200. -/
theorem one_page_sizing_monotone_witness :
    1500 < 3200 ∧ one_page_scale 3200 ≤ one_page_scale 1500 :=
  ⟨by norm_num, (one_page_sizing_monotone 1500 3200 (by norm_num)).1⟩

/-! ## Claim C9: missing input file -/

/-- Claim C9 (confirmed): for a missing input path, `generate_pdf` returns
the input-not-found error with the file system unchanged (no output file is
created, an existing one is untouched, nothing is parsed or sized), and that
error is returned only when the input path does not exist. -/
theorem generate_pdf_missing_input (cfg : Config) (fs : List (Str × FileData))
    (markdown_file : Str) (output_filename : Option Str) :
    (fsLookup fs markdown_file = none →
      generate_pdf cfg fs markdown_file output_filename =
        (fs, Except.error (str "Markdown file not found: " ++ markdown_file))) ∧
    (∀ e, (generate_pdf cfg fs markdown_file output_filename).2 = Except.error e →
      fsLookup fs markdown_file = none ∧
        e = str "Markdown file not found: " ++ markdown_file) := by
  cases h : fsLookup fs markdown_file <;> simp [generate_pdf, h]

/-- Witness for C9: an empty file system has no `resume.md`. -/
theorem generate_pdf_missing_input_witness :
    generate_pdf ⟨true, str "output", false⟩ [] (str "resume.md") none =
      ([], Except.error (str "Markdown file not found: " ++ str "resume.md")) :=
  (generate_pdf_missing_input ⟨true, str "output", false⟩ [] (str "resume.md") none).1 rfl

/-! ## Claim C4: section reordering -/

/-- Last element of a list as an option, with a fallback. -/
def lastOr (l : List Block) (d : Option Block) : Option Block :=
  match l.getLast? with
  | some s => some s
  | none => d

/-- Consing shifts the fallback of `lastOr`. -/
theorem lastOr_cons (s : Block) (l : List Block) (d : Option Block) :
    lastOr (s :: l) d = lastOr l (some s) := by
  simp only [lastOr, List.getLast?_cons]
  cases h : l.getLast? <;> simp [h]

/-- Without a fallback, `lastOr` is `getLast?`. -/
theorem lastOr_none (l : List Block) : lastOr l none = l.getLast? := by
  simp only [lastOr]
  cases h : l.getLast? <;> simp [h]

/-- Test for a section block of the given category. -/
def isCat (c : Category) (s : Block) : Bool :=
  decide (s.type = BlockType.sec ∧ categorize s.title = c)

/-- The categorization loop keeps the last name block, the last section of
each recognized category, and the other-category sections in order. -/
theorem reorder_foldl_spec (sections : List Block) (acc : ReorderAcc) :
    sections.foldl reorderStep acc =
      ⟨lastOr (sections.filter fun s => decide (s.type = BlockType.name)) acc.nameSection,
       ⟨lastOr (sections.filter (isCat .education)) acc.map.education,
        lastOr (sections.filter (isCat .experience)) acc.map.experience,
        lastOr (sections.filter (isCat .skills)) acc.map.skills,
        lastOr (sections.filter (isCat .projects)) acc.map.projects,
        lastOr (sections.filter (isCat .courses)) acc.map.courses⟩,
       acc.others ++ sections.filter (isCat .other)⟩ := by
  induction sections generalizing acc with
  | nil => simp [lastOr]
  | cons s rest ih =>
      rw [List.foldl_cons, ih]
      cases hts : s.type with
      | name =>
          simp [reorderStep, hts, isCat, lastOr_cons, List.filter_cons]
      | sec =>
          cases htc : categorize s.title <;>
            simp [reorderStep, hts, htc, isCat, lastOr_cons, List.filter_cons]

/-- Closed form of `reorder_sections`. -/
theorem reorder_sections_spec (sections : List Block) :
    reorder_sections sections =
      (lastOr (sections.filter fun s => decide (s.type = BlockType.name)) none).toList ++
        section_priority.filterMap (fun c => (sections.filter (isCat c)).getLast?) ++
        sections.filter (isCat .other) := by
  unfold reorder_sections
  rw [reorder_foldl_spec]
  simp only [section_priority, List.filterMap_cons, List.filterMap_nil, SectionMap.get,
    lastOr_none, List.append_assoc, List.nil_append]

/-- Claim C4 (confirmed): reordering returns the (last) `name` block first
unchanged, then at most one section per category in the fixed priority order
experience, education, projects, skills, courses — the *last* section of each
category, so on duplicates the later one overwrites the earlier, which is
dropped — then all other-category sections in their original relative order;
and sections titled SKILLS, EXPERIENCE, EDUCATION reorder to EXPERIENCE,
EDUCATION, SKILLS. -/
theorem reorder_sections_characterization (sections : List Block) :
    reorder_sections sections =
      ((sections.filter fun s => decide (s.type = BlockType.name)).getLast?).toList ++
        section_priority.filterMap (fun c =>
          (sections.filter fun s =>
            decide (s.type = BlockType.sec ∧ categorize s.title = c)).getLast?) ++
        (sections.filter fun s =>
          decide (s.type = BlockType.sec ∧ categorize s.title = Category.other)) ∧
    reorder_sections
        [⟨.sec, str "SKILLS", []⟩, ⟨.sec, str "EXPERIENCE", []⟩, ⟨.sec, str "EDUCATION", []⟩] =
      [⟨.sec, str "EXPERIENCE", []⟩, ⟨.sec, str "EDUCATION", []⟩, ⟨.sec, str "SKILLS", []⟩] := by
  constructor
  · rw [reorder_sections_spec, lastOr_none]
    rfl
  · decide

/-! ## Claim C8: line filtering -/

/-- A literal horizontal-rule line: solely three or more hyphens. -/
def isHRLine (l : Str) : Bool := decide (3 ≤ l.length) && l.all (fun c => c = '-')

/-- Modelled from the claim's words (C8): remove exactly the blank lines and
the literal horizontal-rule lines, keep every other line whitespace-trimmed
in order. -/
def claimFilterLines (lines : List Str) : List Str :=
  (lines.map pyStrip).filter (fun l => !l.isEmpty && !isHRLine l)

/-- Counterexample to claim C8 as stated: the line `---abc` is neither blank
nor a literal horizontal rule, yet the code's filtering stage removes it. -/
theorem filter_lines_counterexample :
    filter_lines [str "---abc"] = [] ∧
    claimFilterLines [str "---abc"] = [str "---abc"] ∧
    ([] : List Str) ≠ [str "---abc"] :=
  ⟨by decide, by decide, by decide⟩

/-- Claim C8 (corrected): the filtering stage removes exactly the blank
lines and the lines whose trimmed form starts with three hyphens — a strict
superset of the literal horizontal-rule lines, every one of which starts
with `---` — and keeps every other line, whitespace-trimmed, in order. -/
theorem filter_lines_amended (lines : List Str) :
    filter_lines lines =
      (lines.map pyStrip).filter
        (fun l => !l.isEmpty && !pyStartsWith l (str "---")) ∧
    (∀ l : Str, isHRLine l = true → pyStartsWith l (str "---") = true) := by
  constructor
  · induction lines with
    | nil => rfl
    | cons l rest ih =>
        simp only [filter_lines, List.map_cons, List.filter_cons]
        by_cases he : (pyStrip l).isEmpty
        · simp [he, ih]
        · by_cases hs : pyStartsWith (pyStrip l) (str "---") = true
          · simp [he, hs, ih]
          · have hne : ¬(pyStrip l = str "---") := by
              intro hh
              rw [hh] at hs
              exact hs (by decide)
            simp [he, hs, hne, ih]
  · intro l h
    match l with
    | [] => simp [isHRLine] at h
    | [c] => simp [isHRLine] at h
    | [c1, c2] => simp [isHRLine] at h
    | c1 :: c2 :: c3 :: rest =>
        simp only [isHRLine, List.all_cons, Bool.and_eq_true, decide_eq_true_eq] at h
        obtain ⟨-, h1, h2, h3, -⟩ := h
        simp [pyStartsWith, str, h1, h2, h3]

/-- Witness for C8: the amended characterization at a concrete input, and a
concrete horizontal-rule line starting with `---`. -/
theorem filter_lines_amended_witness :
    filter_lines [str "---abc", str " hi "] =
      ([str "---abc", str " hi "].map pyStrip).filter
        (fun l => !l.isEmpty && !pyStartsWith l (str "---")) ∧
    isHRLine (str "----") = true ∧ pyStartsWith (str "----") (str "---") = true :=
  ⟨(filter_lines_amended [str "---abc", str " hi "]).1, by decide,
   (filter_lines_amended []).2 (str "----") (by decide)⟩

/-! ## Claim C3: header title and contact extraction -/

/-- Modelled from the claim's words (C3): the contact heuristics are checked
before title extraction, the title is the first bold-wrapped line matching no
contact heuristic, and every line matching a contact heuristic is collected
in order. -/
def claimHeaderExtract (content : List Str) : Str × List Str :=
  (((content.filter (fun l => isBoldLine l && !isContactLine l)).head?).elim (str "") slice22,
   content.filter isContactLine)

/-- Counterexample to claim C3 as stated: the code checks the bold-wrapped
test first, so a bold contact line (`**a@b**`) becomes a title candidate and
is never collected as contact, and repeated bold lines show the *last* one
wins, not the first. -/
theorem header_extract_counterexample :
    header_extract [str "**a@b**", str "**A**", str "**B**"] = (str "B", []) ∧
    claimHeaderExtract [str "**a@b**", str "**A**", str "**B**"] =
      (str "A", [str "**a@b**"]) ∧
    (str "B", ([] : List Str)) ≠ (str "A", [str "**a@b**"]) :=
  ⟨by decide, by decide, by decide⟩

/-- Eliminating an optional last element of a cons shifts the default. -/
theorem elim_getLast?_cons {α β : Type _} (x : α) (X : List α) (t : β) (f : α → β) :
    ((x :: X).getLast?).elim t f = (X.getLast?).elim (f x) f := by
  rw [List.getLast?_cons]
  cases h : X.getLast? <;> simp [h]

/-- Closed form of the header-content loop. -/
theorem headerGo_spec (ls : List Str) (t : Str) (cs : List Str) :
    headerGo ls t cs =
      (((ls.filter isBoldLine).getLast?).elim t slice22,
       cs ++ ls.filter (fun l => !isBoldLine l && isContactLine l)) := by
  induction ls generalizing t cs with
  | nil => simp [headerGo]
  | cons l rest ih =>
      simp only [headerGo, List.filter_cons]
      by_cases hb : isBoldLine l = true
      · simp [hb, elim_getLast?_cons, ih]
      · by_cases hc : isContactLine l = true
        · simp [hb, hc, ih, List.append_assoc]
        · simp [hb, hc, ih]

/-- Claim C3 (corrected): the bold-wrapped test is checked *before* the
contact heuristics; the header title is the *last* bold-wrapped line (with
the first and last two characters removed), and exactly the lines that are
not bold-wrapped and match a contact heuristic are appended, in order, to
`contact_lines`. -/
theorem header_extract_amended (content : List Str) :
    header_extract content =
      (((content.filter isBoldLine).getLast?).elim (str "") slice22,
       content.filter (fun l => !isBoldLine l && isContactLine l)) := by
  rw [header_extract, headerGo_spec]
  simp

/-! ## Claim C2: section-parser accumulator -/

/-- Modelled from the spec's words (C2): the current-block accumulator over
already-classified lines — `# ` opens a name block, `## ` opens a section
block, each closing any block in progress; any other line is appended
verbatim to the open block's content; the open block is emitted at the end;
content before any header is dropped because no block is open. -/
def claimSectionAccum : List Str → Option (BlockType × Str) → List Str → List Block
  | [], cur, cc => flushBlock cur cc
  | l :: rest, cur, cc =>
      if pyStartsWith l (str "# ") then
        flushBlock cur cc ++ claimSectionAccum rest (some (.name, pyStrip (l.drop 2))) []
      else if pyStartsWith l (str "## ") then
        flushBlock cur cc ++ claimSectionAccum rest (some (.sec, pyStrip (l.drop 3))) []
      else claimSectionAccum rest cur (cc ++ [l])

/-- With no block open, the pending-content accumulator is irrelevant. -/
theorem parse_go_none_cc (lines : List Str) (cc cc' : List Str) :
    parse_go lines none cc = parse_go lines none cc' := by
  induction lines generalizing cc cc' with
  | nil => rfl
  | cons l rest ih =>
      simp only [parse_go]
      split_ifs <;> first | exact ih _ _ | simp [flushBlock]

/-- On classified lines (trimmed, non-blank, not skipped), the parsing loop
is exactly the claimed accumulator. -/
theorem parse_go_eq_claim (lines : List Str)
    (h : ∀ l ∈ lines, pyStrip l = l ∧ l.isEmpty = false ∧
      pyStartsWith l (str "---") = false) :
    ∀ cur cc, parse_go lines cur cc = claimSectionAccum lines cur cc := by
  induction lines with
  | nil => intro cur cc; rfl
  | cons l rest ih =>
      intro cur cc
      obtain ⟨h1, h2, h3⟩ := h l (List.mem_cons_self l rest)
      have hrest : ∀ x ∈ rest, pyStrip x = x ∧ x.isEmpty = false ∧
          pyStartsWith x (str "---") = false :=
        fun x hx => h x (List.mem_cons_of_mem l hx)
      have hne : ¬(l = str "---") := by
        intro hh
        rw [hh] at h3
        exact absurd h3 (by decide)
      simp only [parse_go, claimSectionAccum, h1, h2, h3, decide_eq_false hne,
        Bool.or_self, Bool.false_eq_true, if_false, ih hrest]

/-- Lines before any header contribute nothing. -/
theorem parse_go_drop_pre (pre rest : List Str)
    (h : ∀ l ∈ pre, pyStartsWith (pyStrip l) (str "# ") = false ∧
      pyStartsWith (pyStrip l) (str "## ") = false) :
    ∀ cc, parse_go (pre ++ rest) none cc = parse_go rest none [] := by
  induction pre with
  | nil => exact fun cc => parse_go_none_cc rest cc []
  | cons l pre' ih =>
      intro cc
      obtain ⟨h1, h2⟩ := h l (List.mem_cons_self l pre')
      have hpre : ∀ x ∈ pre', pyStartsWith (pyStrip x) (str "# ") = false ∧
          pyStartsWith (pyStrip x) (str "## ") = false :=
        fun x hx => h x (List.mem_cons_of_mem l hx)
      simp only [List.cons_append, parse_go, h1, h2, Bool.false_eq_true, if_false]
      split_ifs <;> exact ih hpre _

/-- Claim C2 (confirmed): on classified line sequences the section parser is
the claimed current-block accumulator (`# ` opens a name block with trimmed
remainder, `## ` a section block, closing and emitting any block in
progress; other lines are appended verbatim to the open block; the open
block is emitted at the end), and content lines before any header are
silently dropped. -/
theorem section_parser_accumulator (lines : List Str)
    (h : ∀ l ∈ lines, pyStrip l = l ∧ l.isEmpty = false ∧
      pyStartsWith l (str "---") = false) :
    parse_go lines none [] = claimSectionAccum lines none [] ∧
    (∀ pre rest : List Str,
      (∀ l ∈ pre, pyStartsWith (pyStrip l) (str "# ") = false ∧
          pyStartsWith (pyStrip l) (str "## ") = false) →
      parse_go (pre ++ rest) none [] = parse_go rest none []) :=
  ⟨parse_go_eq_claim lines h none [], fun pre rest hp => parse_go_drop_pre pre rest hp []⟩

/-- Witness for C2 on a concrete document. -/
theorem section_parser_accumulator_witness :
    parse_go [str "# Jane", str "**T**", str "## SKILLS", str "Go"] none [] =
      claimSectionAccum [str "# Jane", str "**T**", str "## SKILLS", str "Go"] none [] ∧
    parse_go ([str "intro"] ++ [str "# A"]) none [] = parse_go [str "# A"] none [] :=
  ⟨(section_parser_accumulator _ (by decide)).1,
   (section_parser_accumulator [] (by decide)).2 [str "intro"] [str "# A"] (by decide)⟩

/-! ## Claim C1: entry segmentation -/

/-- Flattening the segmented entries recovers exactly the classified
fragments, in order. -/
theorem segGo_flatten (lines : List Str) :
    ∀ cur, (segmentGo lines cur).flatten = cur ++ lines.filterMap classify_line := by
  induction lines with
  | nil =>
      intro cur
      by_cases h : cur.isEmpty
      · simp [segmentGo, h, List.isEmpty_iff.mp h]
      · simp [segmentGo, h]
  | cons l rest ih =>
      intro cur
      simp only [segmentGo]
      cases hc : classify_line l with
      | none => simp [hc, ih]
      | some f =>
          by_cases hk : f.kind = FragKind.company
          · by_cases hcur : cur.isEmpty
            · simp [hc, hk, hcur, ih, List.isEmpty_iff.mp hcur]
            · simp [hc, hk, hcur, ih]
          · simp [hc, hk, ih]

/-- A `filterMap` keeps as many elements as satisfy the partial function. -/
theorem length_filterMap_eq_countP {α β : Type _} (f : α → Option β) (l : List α) :
    (l.filterMap f).length = l.countP (fun a => (f a).isSome) := by
  induction l with
  | nil => rfl
  | cons a t ih => cases h : f a <;> simp [List.filterMap_cons, h, List.countP_cons, ih]

/-- No emitted entry is empty. -/
theorem segGo_entries_ne (lines : List Str) :
    ∀ cur, ∀ e ∈ segmentGo lines cur, e ≠ [] := by
  induction lines with
  | nil =>
      intro cur e he
      by_cases h : cur.isEmpty
      · simp [segmentGo, h] at he
      · simp [segmentGo, h] at he
        subst he
        simpa [List.isEmpty_iff] using h
  | cons l rest ih =>
      intro cur e he
      cases hc : classify_line l with
      | none =>
          simp only [segmentGo, hc] at he
          exact ih cur e he
      | some f =>
          simp only [segmentGo, hc] at he
          by_cases hk : f.kind = FragKind.company
          · rw [if_pos hk] at he
            by_cases hcur : cur.isEmpty
            · rw [if_pos hcur] at he
              exact ih [f] e he
            · rw [if_neg hcur] at he
              rcases List.mem_cons.mp he with rfl | hmem
              · simpa [List.isEmpty_iff] using hcur
              · exact ih [f] e hmem
          · rw [if_neg hk] at he
            exact ih (cur ++ [f]) e he

/-- Once the open entry starts with an organization fragment, every emitted
entry starts with an organization fragment. -/
theorem segGo_all_company (lines : List Str) :
    ∀ t cs, ∀ e ∈ segmentGo lines (⟨FragKind.company, t⟩ :: cs),
      ∃ t' rest', e = ⟨FragKind.company, t'⟩ :: rest' := by
  induction lines with
  | nil =>
      intro t cs e he
      simp only [segmentGo, List.isEmpty_cons] at he
      rw [if_neg (by simp)] at he
      rcases List.mem_singleton.mp he with rfl
      exact ⟨t, cs, rfl⟩
  | cons l rest ih =>
      intro t cs e he
      cases hc : classify_line l with
      | none =>
          simp only [segmentGo, hc] at he
          exact ih t cs e he
      | some f =>
          simp only [segmentGo, hc] at he
          by_cases hk : f.kind = FragKind.company
          · rw [if_pos hk] at he
            rw [if_neg (by simp)] at he
            rcases List.mem_cons.mp he with rfl | hmem
            · exact ⟨t, cs, rfl⟩
            · obtain ⟨k, tx⟩ := f
              simp only at hk
              subst hk
              exact ih tx [] e hmem
          · rw [if_neg hk] at he
            rw [show (⟨FragKind.company, t⟩ :: cs) ++ [f] =
              ⟨FragKind.company, t⟩ :: (cs ++ [f]) from rfl] at he
            exact ih t (cs ++ [f]) e he

/-- Every entry after the first starts with an organization fragment. -/
theorem segGo_tail_company (lines : List Str) :
    ∀ cur, ∀ e ∈ (segmentGo lines cur).tail,
      ∃ t' rest', e = ⟨FragKind.company, t'⟩ :: rest' := by
  induction lines with
  | nil =>
      intro cur e he
      by_cases h : cur.isEmpty <;> simp [segmentGo, h] at he
  | cons l rest ih =>
      intro cur e he
      cases hc : classify_line l with
      | none =>
          simp only [segmentGo, hc] at he
          exact ih cur e he
      | some f =>
          simp only [segmentGo, hc] at he
          by_cases hk : f.kind = FragKind.company
          · obtain ⟨k, tx⟩ := f
            simp only at hk
            subst hk
            rw [if_pos rfl] at he
            by_cases hcur : cur.isEmpty
            · rw [if_pos hcur] at he
              exact segGo_all_company rest tx [] e (List.mem_of_mem_tail he)
            · rw [if_neg hcur] at he
              rw [List.tail_cons] at he
              exact segGo_all_company rest tx [] e he
          · rw [if_neg hk] at he
            exact ih (cur ++ [f]) e he

/-- Organization fragments appear only at the head of an entry: all other
fragment kinds append to the currently open entry. -/
theorem segGo_tail_frags (lines : List Str) :
    ∀ cur, (∀ g ∈ cur.tail, g.kind ≠ FragKind.company) →
      ∀ e ∈ segmentGo lines cur, ∀ g ∈ e.tail, g.kind ≠ FragKind.company := by
  induction lines with
  | nil =>
      intro cur hcur e he
      by_cases h : cur.isEmpty
      · simp [segmentGo, h] at he
      · simp only [segmentGo, h, Bool.false_eq_true, if_false] at he
        rcases List.mem_singleton.mp he with rfl
        exact hcur
  | cons l rest ih =>
      intro cur hcur e he
      cases hc : classify_line l with
      | none =>
          simp only [segmentGo, hc] at he
          exact ih cur hcur e he
      | some f =>
          simp only [segmentGo, hc] at he
          by_cases hk : f.kind = FragKind.company
          · rw [if_pos hk] at he
            by_cases hcur2 : cur.isEmpty
            · rw [if_pos hcur2] at he
              exact ih [f] (by simp) e he
            · rw [if_neg hcur2] at he
              rcases List.mem_cons.mp he with rfl | hmem
              · exact hcur
              · exact ih [f] (by simp) e hmem
          · rw [if_neg hk] at he
            refine ih (cur ++ [f]) ?_ e he
            intro g hg
            match cur with
            | [] =>
                simp only [List.nil_append] at hg
                simp at hg
            | c :: cs =>
                rw [List.cons_append, List.tail_cons] at hg
                rcases List.mem_append.mp hg with h1 | h2
                · exact hcur g h1
                · rcases List.mem_singleton.mp h2 with rfl
                  exact hk

/-- Claim C1 (corrected): each content line is classified by the stated
precedence (the four recognized shapes, in order); an organization fragment
closes the previous entry and starts a new one unless it is the first
fragment, all other fragments append to the open entry, and the final open
entry is flushed; no fragment is dropped — the fragments of all entries are
exactly the classified lines in order, so the total fragment count equals
the count of lines matching one of the four shapes.  The organization text
is the line with all leading and trailing `*` characters stripped (Python
`strip('*')`), not merely the `**` wrapping. -/
theorem entry_segmentation_amended (lines : List Str) :
    (∀ l : Str, (classify_line l).isSome =
      ((pyStartsWith l (str "**") && !pyStartsWith l (str "***") && pyEndsWith l (str "**")) ||
       (pyStartsWith l (str "*") && hasChar '|' l && pyEndsWith l (str "*")) ||
       pyStartsWith l (str "- ") ||
       (!l.isEmpty && !pyStartsWith l (str "#")))) ∧
    (segment_entries lines).flatten = lines.filterMap classify_line ∧
    ((segment_entries lines).map List.length).sum =
      lines.countP (fun l => (classify_line l).isSome) ∧
    (∀ e ∈ segment_entries lines, e ≠ []) ∧
    (∀ e ∈ (segment_entries lines).tail, ∃ t' rest', e = ⟨FragKind.company, t'⟩ :: rest') ∧
    (∀ e ∈ segment_entries lines, ∀ g ∈ e.tail, g.kind ≠ FragKind.company) := by
  refine ⟨?_, ?_, ?_, ?_, ?_, ?_⟩
  · intro l
    simp only [classify_line]
    split_ifs <;> simp [*]
  · simpa using segGo_flatten lines []
  · rw [← List.length_flatten, segment_entries, segGo_flatten lines [], List.nil_append]
    exact length_filterMap_eq_countP classify_line lines
  · exact segGo_entries_ne lines []
  · exact segGo_tail_company lines []
  · exact segGo_tail_frags lines [] (by simp)

/-- Counterexample to claim C1 as stated: on the line `**a***` the code
strips all asterisks (`strip('*')`), producing the organization text `a`,
not the `**`-wrapping-stripped text `a*`. -/
theorem entry_segmentation_counterexample :
    segment_entries [str "**a***"] = [[⟨FragKind.company, str "a"⟩]] ∧
    slice22 (str "**a***") = str "a*" ∧
    segment_entries [str "**a***"] ≠ [[⟨FragKind.company, slice22 (str "**a***")⟩]] :=
  ⟨by decide, by decide, by decide⟩

/-- Witness for C1 on a concrete section body. -/
theorem entry_segmentation_amended_witness :
    (segment_entries [str "- a", str "**Org**", str "x"]).flatten =
      [str "- a", str "**Org**", str "x"].filterMap classify_line ∧
    (∃ t' rest', [Frag.mk FragKind.company (str "Org"), Frag.mk FragKind.content (str "x")] =
      ⟨FragKind.company, t'⟩ :: rest') :=
  ⟨(entry_segmentation_amended [str "- a", str "**Org**", str "x"]).2.1,
   (entry_segmentation_amended [str "- a", str "**Org**", str "x"]).2.2.2.2.1
     [Frag.mk FragKind.company (str "Org"), Frag.mk FragKind.content (str "x")] (by decide)⟩

/-! ## Claim C7: idempotence of the inline translator on translated text -/

/-- Does the matcher match at any position of the string? -/
def anyMatch (m : Str → Option (Str × Nat)) : Str → Bool
  | [] => (m []).isSome
  | c :: t => (m (c :: t)).isSome || anyMatch m t

/-- The empty string is untouched. -/
theorem subst_nil (m : Str → Option (Str × Nat)) : subst m [] = [] := by
  rw [subst]

/-- A pass over a string with no match anywhere is the identity. -/
theorem subst_id_of_anyMatch (m : Str → Option (Str × Nat)) (s : Str)
    (h : anyMatch m s = false) : subst m s = s := by
  induction s with
  | nil => exact subst_nil m
  | cons c t ih =>
      simp only [anyMatch, Bool.or_eq_false_iff] at h
      obtain ⟨h1, h2⟩ := h
      cases hm : m (c :: t) with
      | some v =>
          rw [hm] at h1
          simp at h1
      | none => rw [subst_cons_none hm, ih h2]

/-- A pass whose matcher only fires on a trigger character is the identity
on strings without that character. -/
theorem subst_id_of_no_trigger (m : Str → Option (Str × Nat)) (trig : Char)
    (hm : ∀ c t, c ≠ trig → m (c :: t) = none) (s : Str)
    (hs : hasChar trig s = false) : subst m s = s := by
  induction s with
  | nil => exact subst_nil m
  | cons c t ih =>
      simp only [hasChar] at hs
      by_cases hc : c = trig
      · rw [if_pos hc] at hs
        exact absurd hs (by simp)
      · rw [if_neg hc] at hs
        rw [subst_cons_none (hm c t hc), ih hs]

/-- The `_**...**_` matcher fires only on an underscore. -/
theorem matchBI1_none_of_head {c : Char} {t : Str} (h : c ≠ '_') :
    matchBI1 (c :: t) = none := by
  match t with
  | [] => rfl
  | [c2] => rfl
  | c2 :: c3 :: t' => simp [matchBI1, h]

/-- The `**_..._**` matcher fires only on an asterisk. -/
theorem matchBI2_none_of_head {c : Char} {t : Str} (h : c ≠ '*') :
    matchBI2 (c :: t) = none := by
  match t with
  | [] => rfl
  | [c2] => rfl
  | c2 :: c3 :: t' => simp [matchBI2, h]

/-- The bold matcher fires only on an asterisk. -/
theorem matchBold_none_of_head {c : Char} {t : Str} (h : c ≠ '*') :
    matchBold (c :: t) = none := by
  match t with
  | [] => rfl
  | c2 :: t' => simp [matchBold, h]

/-- A delimiter matcher fires only on its delimiter. -/
theorem matchDelim_none_of_head {d : Char} {pre post : Str} {c : Char} {t : Str}
    (h : c ≠ d) : matchDelim d pre post (c :: t) = none := by
  simp [matchDelim, h]

/-- The link matcher fires only on an opening bracket. -/
theorem matchLink_none_of_head {dark : Bool} {c : Char} {t : Str} (h : c ≠ '[') :
    matchLink dark (c :: t) = none := by
  simp [matchLink, h]

/-- Claim C7 (confirmed): on a string with no raw Markdown delimiters — no
`*`, no `_`, no backquote, and no position where the `[label](url)` pattern
matches — the inline markup translator is the identity, so translating an
already-translated fragment a second time does not alter it. -/
theorem clean_text_idempotent_on_translated (dark : Bool) (t : Str)
    (h1 : hasChar '*' t = false) (h2 : hasChar '_' t = false)
    (h3 : hasChar btick t = false) (h4 : anyMatch (matchLink dark) t = false) :
    clean_text dark t = t := by
  simp only [clean_text]
  rw [subst_id_of_anyMatch _ _ h4,
    subst_id_of_no_trigger matchBI1 '_' (fun c s hc => matchBI1_none_of_head hc) t h2,
    subst_id_of_no_trigger matchBI2 '*' (fun c s hc => matchBI2_none_of_head hc) t h1,
    subst_id_of_no_trigger matchBold '*' (fun c s hc => matchBold_none_of_head hc) t h1,
    subst_id_of_no_trigger (matchDelim '_' (str "<i>") (str "</i>")) '_'
      (fun c s hc => matchDelim_none_of_head hc) t h2,
    subst_id_of_no_trigger (matchDelim '*' (str "<i>") (str "</i>")) '*'
      (fun c s hc => matchDelim_none_of_head hc) t h1,
    subst_id_of_no_trigger (matchDelim btick (str "<font name=\"Courier\">") (str "</font>")) btick
      (fun c s hc => matchDelim_none_of_head hc) t h3]

/-- Witness for C7 on a concrete translated fragment. -/
theorem clean_text_idempotent_witness :
    clean_text false (str "<b>Hello</b>, x!") = str "<b>Hello</b>, x!" :=
  clean_text_idempotent_on_translated false (str "<b>Hello</b>, x!")
    (by decide) (by decide) (by decide) (by decide)

/-! ## Claim C6: density is monotone under concatenation -/

/-- Maximal non-whitespace runs (words) of a string. -/
def wordsOf : Str → List Str
  | [] => []
  | c :: t =>
      if isWS c then wordsOf t
      else (c :: t.takeWhile (fun x => !isWS x)) :: wordsOf (t.dropWhile (fun x => !isWS x))
termination_by l => l.length
decreasing_by
  · simp
  · simp only [List.length_cons]
    have := length_dropWhile_le' (fun x => !isWS x) t
    omega

/-- Words joined by single spaces: the canonical form of `strip(collapse(s))`. -/
def joinW : List Str → Str
  | [] => []
  | [w] => w
  | w :: ws => w ++ ' ' :: joinW ws

/-- Drop trailing whitespace (reversed `dropWhile`). -/
def rdw (l : Str) : Str := (l.reverse.dropWhile isWS).reverse

/-- Python strip is front `dropWhile` then trailing drop. -/
theorem pyStrip_eq_rdw (l : Str) : pyStrip l = rdw (l.dropWhile isWS) := rfl

/-- Dropping twice drops once. -/
theorem dropWhile_idem (p : Char → Bool) (l : Str) :
    (l.dropWhile p).dropWhile p = l.dropWhile p := by
  induction l with
  | nil => rfl
  | cons c t ih =>
      by_cases h : p c
      · simp [List.dropWhile_cons, h, ih]
      · simp [List.dropWhile_cons, h]

/-- The head surviving `dropWhile` fails the predicate. -/
theorem dropWhile_head_false (p : Char → Bool) (l : Str) :
    ∀ c t, l.dropWhile p = c :: t → p c = false := by
  induction l with
  | nil => intro c t h; simp at h
  | cons a l' ih =>
      intro c t h
      by_cases ha : p a
      · rw [List.dropWhile_cons, if_pos ha] at h
        exact ih c t h
      · rw [List.dropWhile_cons, if_neg ha] at h
        obtain ⟨rfl, -⟩ := List.cons.injEq .. ▸ h
        · simpa using ha

/-- Leading whitespace does not change the words. -/
theorem wordsOf_dropWhile_ws (l : Str) : wordsOf (l.dropWhile isWS) = wordsOf l := by
  induction l with
  | nil => rfl
  | cons c t ih =>
      by_cases h : isWS c
      · rw [List.dropWhile_cons, if_pos h, ih, wordsOf, if_pos h]
      · rw [List.dropWhile_cons, if_neg h]

/-- Collapse returns empty only on empty input. -/
theorem collapseWS_eq_nil_iff (s : Str) : collapseWS s = [] ↔ s = [] := by
  match s with
  | [] => simp [collapseWS]
  | c :: t =>
      constructor
      · intro h
        by_cases hc : isWS c <;> simp [collapseWS, hc] at h
      · intro h
        simp at h

/-- Collapse passes a non-whitespace prefix through. -/
theorem collapseWS_append_nonws (w r : Str) (h : ∀ x ∈ w, isWS x = false) :
    collapseWS (w ++ r) = w ++ collapseWS r := by
  induction w with
  | nil => rfl
  | cons c t ih =>
      have hc : isWS c = false := h c (List.mem_cons_self c t)
      rw [List.cons_append, collapseWS, if_neg (by simp [hc]),
        ih (fun x hx => h x (List.mem_cons_of_mem c hx))]
      rfl

/-- Collapse of a string with no leading whitespace has no leading whitespace. -/
theorem fdw_collapse (s : Str) (h : s.dropWhile isWS = s) :
    (collapseWS s).dropWhile isWS = collapseWS s := by
  match s with
  | [] => simp [collapseWS]
  | c :: t =>
      have hc : isWS c = false := by
        by_cases hc : isWS c
        · exfalso
          rw [List.dropWhile_cons, if_pos hc] at h
          have := length_dropWhile_le' isWS t
          have := congrArg List.length h
          simp at this
          omega
        · simpa using hc
      rw [collapseWS, if_neg (by simp [hc]), List.dropWhile_cons, if_neg (by simp [hc])]

/-- Trailing-whitespace removal is the identity on whitespace-free strings. -/
theorem rdw_all_nonws (l : Str) (h : ∀ x ∈ l, isWS x = false) : rdw l = l := by
  unfold rdw
  match hr : l.reverse with
  | [] => simpa using congrArg List.reverse hr
  | c :: t =>
      have hc : isWS c = false := by
        refine h c ?_
        have : c ∈ l.reverse := by rw [hr]; exact List.mem_cons_self c t
        simpa using this
      rw [List.dropWhile_cons, if_neg (by simp [hc]), ← hr, List.reverse_reverse]

/-- Appending whitespace does not change the trailing-stripped string. -/
theorem rdw_append_ws (x s : Str) (h : ∀ a ∈ s, isWS a = true) :
    rdw (x ++ s) = rdw x := by
  unfold rdw
  rw [List.reverse_append, List.dropWhile_append]
  rw [if_pos]
  simp only [List.isEmpty_iff, List.dropWhile_eq_nil_iff]
  intro a ha
  exact h a (by simpa using ha)

/-- Trailing strip reaches only into the last non-whitespace-bearing part. -/
theorem rdw_append_of_nonws (x y : Str) (h : ∃ c ∈ y, isWS c = false) :
    rdw (x ++ y) = x ++ rdw y := by
  unfold rdw
  rw [List.reverse_append, List.dropWhile_append]
  rw [if_neg]
  · rw [List.reverse_append, List.reverse_reverse]
  · simp only [List.isEmpty_iff, List.dropWhile_eq_nil_iff]
    intro hall
    obtain ⟨c, hc, hcw⟩ := h
    have := hall c (by simpa using hc)
    rw [this] at hcw
    exact absurd hcw (by simp)


/-- Collapse of the empty string. -/
theorem collapseWS_nil : collapseWS [] = [] := by simp [collapseWS]

/-- Words of the empty string. -/
theorem wordsOf_nil : wordsOf [] = [] := by simp [wordsOf]

/-- Key canonicalization (by fuel on the length): trimming the collapsed string is the space-joined word list. -/
theorem strip_collapse_aux :
    ∀ n (s : Str), s.length ≤ n → pyStrip (collapseWS s) = joinW (wordsOf s) := by
  intro n
  induction n with
  | zero =>
      intro s hs
      have hnil : s = [] := List.eq_nil_of_length_eq_zero (Nat.le_zero.mp hs)
      subst hnil
      rw [collapseWS_nil, wordsOf_nil]
      rfl
  | succ n ih =>
      intro s hs
      match s with
      | [] =>
          rw [collapseWS_nil, wordsOf_nil]
          rfl
      | c :: t =>
          simp only [List.length_cons] at hs
          by_cases hc : isWS c
          · -- whitespace head: strip of the leading collapsed space
            have hlen : (t.dropWhile isWS).length ≤ n := by
              have := length_dropWhile_le' isWS t
              omega
            rw [collapseWS, if_pos hc]
            have hX : (collapseWS (t.dropWhile isWS)).dropWhile isWS
                = collapseWS (t.dropWhile isWS) :=
              fdw_collapse _ (dropWhile_idem isWS t)
            have hstep : pyStrip (' ' :: collapseWS (t.dropWhile isWS))
                = pyStrip (collapseWS (t.dropWhile isWS)) := by
              unfold pyStrip pyStripP
              rw [List.dropWhile_cons, if_pos (by decide), hX]
            rw [hstep, ih _ hlen, wordsOf_dropWhile_ws, wordsOf, if_pos hc]
          · -- non-whitespace head
            have hcf : isWS c = false := by simpa using hc
            obtain ⟨w, r, hw_eq, hr_eq⟩ :
                ∃ w r, w = t.takeWhile (fun x => !isWS x) ∧
                  r = t.dropWhile (fun x => !isWS x) := ⟨_, _, rfl, rfl⟩
            have htw : w ++ r = t := by
              rw [hw_eq, hr_eq]
              exact List.takeWhile_append_dropWhile _ t
            have hw : ∀ x ∈ w, isWS x = false := by
              intro x hx
              rw [hw_eq] at hx
              simpa using List.mem_takeWhile_imp hx
            have hcw : ∀ x ∈ c :: w, isWS x = false := by
              intro x hx
              rcases List.mem_cons.mp hx with rfl | hx
              · exact hcf
              · exact hw x hx
            have hcol : collapseWS (c :: t) = (c :: w) ++ collapseWS r := by
              rw [collapseWS, if_neg hc, ← htw, collapseWS_append_nonws w r hw]
              rfl
            have hwords : wordsOf (c :: t) = (c :: w) :: wordsOf r := by
              rw [wordsOf, if_neg hc, ← hw_eq, ← hr_eq]
            have hrlen : r.length ≤ t.length := by
              rw [hr_eq]
              exact length_dropWhile_le' _ t
            rw [hcol, hwords]
            cases r with
            | nil =>
                rw [collapseWS_nil, List.append_nil, wordsOf_nil]
                show pyStrip (c :: w) = joinW [c :: w]
                have : pyStrip (c :: w) = c :: w := by
                  unfold pyStrip pyStripP
                  rw [List.dropWhile_cons, if_neg (by simp [hcf])]
                  exact rdw_all_nonws (c :: w) hcw
                rw [this]
                rfl
            | cons d r2 =>
                have hd : isWS d = true := by
                  have h0 := dropWhile_head_false (fun x => !isWS x) t d r2 hr_eq.symm
                  simpa using h0
                rw [show collapseWS (d :: r2) = ' ' :: collapseWS (r2.dropWhile isWS) from by
                  rw [collapseWS, if_pos (by simp [hd])]]
                have hwr2 : wordsOf (d :: r2) = wordsOf (r2.dropWhile isWS) := by
                  rw [wordsOf, if_pos (by simp [hd]), wordsOf_dropWhile_ws]
                cases hvr : r2.dropWhile isWS with
                | nil =>
                    rw [collapseWS_nil, hwr2, hvr, wordsOf_nil]
                    show pyStrip ((c :: w) ++ [' ']) = joinW [c :: w]
                    have h1 : pyStrip ((c :: w) ++ [' ']) = rdw ((c :: w) ++ [' ']) := by
                      unfold pyStrip pyStripP rdw
                      rw [List.cons_append, List.dropWhile_cons, if_neg (by simp [hcf])]
                    rw [h1, rdw_append_ws (c :: w) [' ']
                        (by intro a ha; rcases List.mem_singleton.mp ha with rfl; decide),
                      rdw_all_nonws (c :: w) hcw]
                    rfl
                | cons e r3 =>
                    have he : isWS e = false := dropWhile_head_false isWS r2 e r3 hvr
                    have hv : collapseWS (e :: r3) = e :: collapseWS r3 := by
                      rw [collapseWS, if_neg (by simp [he])]
                    have hlen2 : (e :: r3).length ≤ n := by
                      have h5 : (e :: r3).length ≤ r2.length := by
                        rw [← hvr]
                        exact length_dropWhile_le' isWS r2
                      have h6 := hrlen
                      simp only [List.length_cons] at h5 h6 ⊢
                      omega
                    -- strip peels nothing from a word-led, word-ended string
                    have hkey : pyStrip ((c :: w) ++ ' ' :: collapseWS (e :: r3))
                        = (c :: w) ++ ' ' :: pyStrip (collapseWS (e :: r3)) := by
                      have hfdwv : (collapseWS (e :: r3)).dropWhile isWS
                          = collapseWS (e :: r3) := by
                        rw [hv, List.dropWhile_cons, if_neg (by simp [he])]
                      have h7 : pyStrip ((c :: w) ++ ' ' :: collapseWS (e :: r3))
                          = rdw (((c :: w) ++ [' ']) ++ collapseWS (e :: r3)) := by
                        unfold pyStrip pyStripP rdw
                        rw [List.cons_append, List.dropWhile_cons, if_neg (by simp [hcf])]
                        rw [List.append_assoc]
                        rfl
                      rw [h7, rdw_append_of_nonws _ _ ⟨e, by rw [hv]; exact List.mem_cons_self e _, he⟩]
                      have h8 : pyStrip (collapseWS (e :: r3)) = rdw (collapseWS (e :: r3)) := by
                        unfold pyStrip pyStripP rdw
                        rw [hfdwv]
                      rw [h8, List.append_assoc]
                      rfl
                    rw [hkey, ih (e :: r3) hlen2, hwr2, hvr]
                    rw [wordsOf, if_neg (by simp [he])]
                    rfl


/-- Trimming the collapsed string is the space-joined word list. -/
theorem strip_collapse (s : Str) : pyStrip (collapseWS s) = joinW (wordsOf s) :=
  strip_collapse_aux s.length s le_rfl

/-- Length of the joined words: total word length plus the gaps. -/
theorem joinW_length (ws : List Str) :
    (joinW ws).length = (ws.map List.length).sum + ws.length - 1 := by
  induction ws with
  | nil => rfl
  | cons w ws ih =>
      cases ws with
      | nil => simp [joinW]
      | cons w2 ws2 =>
          rw [show joinW (w :: w2 :: ws2) = w ++ ' ' :: joinW (w2 :: ws2) from rfl]
          simp only [List.length_append, List.length_cons, List.map_cons, List.sum_cons] at ih ⊢
          omega

/-- Total word length counts exactly the non-whitespace characters (by fuel). -/
theorem sumLens_wordsOf_aux :
    ∀ n (s : Str), s.length ≤ n →
      ((wordsOf s).map List.length).sum = (s.filter (fun c => !isWS c)).length := by
  intro n
  induction n with
  | zero =>
      intro s hs
      have hnil : s = [] := List.eq_nil_of_length_eq_zero (Nat.le_zero.mp hs)
      subst hnil
      simp [wordsOf_nil]
  | succ n ih =>
      intro s hs
      match s with
      | [] => simp [wordsOf_nil]
      | c :: t =>
          simp only [List.length_cons] at hs
          by_cases hc : isWS c
          · rw [wordsOf, if_pos hc, List.filter_cons, if_neg (by simp [hc])]
            exact ih t (by omega)
          · have hcf : isWS c = false := by simpa using hc
            rw [wordsOf, if_neg hc, List.filter_cons, if_pos (by simp [hcf])]
            obtain ⟨w, r, hw_eq, hr_eq⟩ :
                ∃ w r, w = t.takeWhile (fun x => !isWS x) ∧
                  r = t.dropWhile (fun x => !isWS x) := ⟨_, _, rfl, rfl⟩
            have htw : w ++ r = t := by
              rw [hw_eq, hr_eq]
              exact List.takeWhile_append_dropWhile _ t
            have hw : ∀ x ∈ w, (fun z => !isWS z) x = true := by
              intro x hx
              rw [hw_eq] at hx
              have h9 := List.mem_takeWhile_imp hx
              exact h9
            have hrlen : r.length ≤ n := by
              have : r.length ≤ t.length := by
                rw [hr_eq]
                exact length_dropWhile_le' _ t
              omega
            rw [← hw_eq, ← hr_eq, ← htw, List.filter_append,
              List.filter_eq_self.mpr hw]
            simp only [List.map_cons, List.sum_cons, List.length_cons, List.length_append]
            rw [ih r hrlen]
            omega

/-- Total word length counts exactly the non-whitespace characters. -/
theorem sumLens_wordsOf (s : Str) :
    ((wordsOf s).map List.length).sum = (s.filter (fun c => !isWS c)).length :=
  sumLens_wordsOf_aux s.length s le_rfl

/-- Appending text never decreases the number of words (by fuel). -/
theorem wordsOf_append_count_aux :
    ∀ n (x : Str), x.length ≤ n →
      ∀ y, (wordsOf x).length ≤ (wordsOf (x ++ y)).length := by
  intro n
  induction n with
  | zero =>
      intro x hx y
      have hnil : x = [] := List.eq_nil_of_length_eq_zero (Nat.le_zero.mp hx)
      subst hnil
      simp [wordsOf_nil]
  | succ n ih =>
      intro x hx y
      match x with
      | [] => simp [wordsOf_nil]
      | c :: t =>
          simp only [List.length_cons] at hx
          by_cases hc : isWS c
          · rw [wordsOf, if_pos hc, List.cons_append, wordsOf, if_pos hc]
            exact ih t (by omega) y
          · rw [wordsOf, if_neg hc, List.cons_append, wordsOf, if_neg hc]
            simp only [List.length_cons, Nat.add_le_add_iff_right]
            cases hdw : t.dropWhile (fun x => !isWS x) with
            | nil =>
                rw [wordsOf_nil]
                simp
            | cons d r2 =>
                rw [List.dropWhile_append, hdw]
                rw [if_neg (by simp)]
                have hlen : (d :: r2).length ≤ n := by
                  have : (d :: r2).length ≤ t.length := by
                    rw [← hdw]
                    exact length_dropWhile_le' _ t
                  simp only [List.length_cons] at this ⊢
                  omega
                exact ih (d :: r2) hlen y

/-- Appending text never decreases the number of words. -/
theorem wordsOf_append_count (x y : Str) :
    (wordsOf x).length ≤ (wordsOf (x ++ y)).length :=
  wordsOf_append_count_aux x.length x le_rfl y

/-- Claim C6 (confirmed): the estimated content length (strip Markdown
punctuation, collapse whitespace runs, trim, take the length) of `a ++ b` is
at least that of `a` alone: density is monotone under concatenation. -/
theorem estimate_content_length_monotone (a b : Str) :
    estimate_content_length a ≤ estimate_content_length (a ++ b) := by
  unfold estimate_content_length
  rw [List.filter_append]
  generalize a.filter (fun c => ¬ isMdPunct c) = x
  generalize b.filter (fun c => ¬ isMdPunct c) = y
  rw [strip_collapse, strip_collapse, joinW_length, joinW_length,
    sumLens_wordsOf, sumLens_wordsOf, List.filter_append, List.length_append]
  have hW := wordsOf_append_count x y
  omega

/-! ## Claim C10: bold translation before the category-header tests -/

/-- Membership form of the character-containment test. -/
theorem hasChar_eq_false {c : Char} {l : Str} (h : ∀ x ∈ l, x ≠ c) :
    hasChar c l = false := by
  induction l with
  | nil => rfl
  | cons a t ih =>
      rw [hasChar, if_neg (h a (List.mem_cons_self a t))]
      exact ih (fun x hx => h x (List.mem_cons_of_mem a hx))

/-- The `_**...**_` pass leaves an asterisk-free prefix of a closing `**` alone. -/
theorem bi1_inner_id (U : Str) (h : ∀ c ∈ U, c ≠ '*') :
    subst matchBI1 (U ++ ['*', '*']) = U ++ ['*', '*'] := by
  induction U with
  | nil =>
      rw [List.nil_append]
      rw [subst_cons_none (by rfl), subst_cons_none (by rfl), subst_nil]
  | cons c U2 ih =>
      have hrest := fun x hx => h x (List.mem_cons_of_mem c hx)
      rw [List.cons_append]
      have hnone : matchBI1 (c :: (U2 ++ ['*', '*'])) = none := by
        match U2 with
        | [] => by_cases hcu : c = '_' <;> simp [matchBI1, hcu]
        | [x] =>
            have hx : x ≠ '*' := hrest x (by simp)
            simp [matchBI1, hx]
        | x :: y :: U3 =>
            have hx : x ≠ '*' := hrest x (by simp)
            simp [matchBI1, hx]
      rw [subst_cons_none hnone, ih hrest]

/-- The `_**...**_` pass is the identity on a `**`-wrapped asterisk-free body. -/
theorem bi1_star_wrapped (U : Str) (h : ∀ c ∈ U, c ≠ '*') :
    subst matchBI1 ('*' :: '*' :: (U ++ ['*', '*'])) = '*' :: '*' :: (U ++ ['*', '*'])
    := by
  have h1 : matchBI1 ('*' :: '*' :: (U ++ ['*', '*'])) = none := by
    cases U with
    | nil => rfl
    | cons x U2 => simp [matchBI1]
  have h2 : matchBI1 ('*' :: (U ++ ['*', '*'])) = none := by
    cases U with
    | nil => rfl
    | cons x U2 =>
        have hx : x ≠ '*' := h x (List.mem_cons_self x U2)
        cases U2 with
        | nil => simp [matchBI1]
        | cons y U3 => simp [matchBI1]
  rw [subst_cons_none h1, subst_cons_none h2, bi1_inner_id U h]

/-- The `**_..._**` pass leaves an asterisk-free prefix of a closing `**` alone. -/
theorem bi2_inner_id (U : Str) (h : ∀ c ∈ U, c ≠ '*') :
    subst matchBI2 (U ++ ['*', '*']) = U ++ ['*', '*'] := by
  induction U with
  | nil =>
      rw [List.nil_append]
      rw [subst_cons_none (by rfl), subst_cons_none (by rfl), subst_nil]
  | cons c U2 ih =>
      have hc : c ≠ '*' := h c (List.mem_cons_self c U2)
      have hrest := fun x hx => h x (List.mem_cons_of_mem c hx)
      rw [List.cons_append]
      have hnone : matchBI2 (c :: (U2 ++ ['*', '*'])) = none := by
        match U2 with
        | [] => simp [matchBI2, hc]
        | [x] => simp [matchBI2, hc]
        | x :: y :: U3 => simp [matchBI2, hc]
      rw [subst_cons_none hnone, ih hrest]

/-- On a `**`-wrapped asterisk-free body the `**_..._**` pass either rewrites
the whole line to `<b><i>...</i></b>` (when the body is exactly `_..._`) or
leaves it unchanged. -/
theorem bi2_star_wrapped (U : Str) (hne : U ≠ []) (h : ∀ c ∈ U, c ≠ '*') :
    (∃ M, U = '_' :: (M ++ ['_']) ∧ M ≠ [] ∧ (∀ c ∈ M, c ≠ '_') ∧ (∀ c ∈ M, c ≠ '*') ∧
      subst matchBI2 ('*' :: '*' :: (U ++ ['*', '*'])) =
        str "<b><i>" ++ M ++ str "</i></b>") ∨
    subst matchBI2 ('*' :: '*' :: (U ++ ['*', '*'])) = '*' :: '*' :: (U ++ ['*', '*'])
    := by
  have hid : matchBI2 ('*' :: '*' :: (U ++ ['*', '*'])) = none →
      subst matchBI2 ('*' :: '*' :: (U ++ ['*', '*'])) =
        '*' :: '*' :: (U ++ ['*', '*'])  := by
    intro h0
    have h2 : matchBI2 ('*' :: (U ++ ['*', '*'])) = none := by
      match U, hne with
      | u0 :: U2, _ =>
          have hu0 : u0 ≠ '*' := h u0 (List.mem_cons_self u0 U2)
          cases U2 with
          | nil => simp [matchBI2, hu0]
          | cons y U3 => simp [matchBI2, hu0]
    rw [subst_cons_none h0, subst_cons_none h2, bi2_inner_id U h]
  match U, hne with
  | u0 :: U2, _ =>
      by_cases hu0 : u0 = '_'
      case neg =>
        refine Or.inr (hid ?_)
        cases U2 with
        | nil => simp [matchBI2, hu0]
        | cons y U3 => simp [matchBI2, hu0]
      case pos =>
        subst hu0
        have hstarU2 : ∀ x ∈ U2, x ≠ '*' :=
          fun x hx => h x (List.mem_cons_of_mem _ hx)
        cases hj : U2.dropWhile (fun x => x ≠ '_') with
        | nil =>
            refine Or.inr (hid ?_)
            have hall : ∀ x ∈ U2 ++ ['*', '*'], (fun z => decide (z ≠ '_')) x = true := by
              intro x hx
              rcases List.mem_append.mp hx with hx | hx
              · have h9 := List.dropWhile_eq_nil_iff.mp hj x hx
                simpa using h9
              · rcases List.mem_cons.mp hx with rfl | hx
                · decide
                · rcases List.mem_singleton.mp hx with rfl
                  decide
            have hdw0 : (U2 ++ ['*', '*']).dropWhile (fun x => x ≠ '_') = [] := by
              rw [List.dropWhile_append, hj]
              simp
            rw [List.cons_append, matchBI2, if_pos ⟨rfl, rfl, rfl⟩, hdw0]
            have hemp : ((U2 ++ ['*', '*']).takeWhile (fun x => x ≠ '_')).isEmpty = false := by
              rw [List.takeWhile_eq_self_iff.mpr hall]
              cases U2 <;> rfl
            simp [hemp]
        | cons m0 js =>
            have hm0 : m0 = '_' := by
              have h9 := dropWhile_head_false (fun x => x ≠ '_') U2 m0 js hj
              simpa using h9
            subst hm0
            have hU2 : U2 = U2.takeWhile (fun x => x ≠ '_') ++ '_' :: js := by
              rw [← hj]
              exact (List.takeWhile_append_dropWhile _ U2).symm
            have hMne : ∀ c ∈ U2.takeWhile (fun x => x ≠ '_'), c ≠ '_' := by
              intro c hcm
              have h9 := List.mem_takeWhile_imp hcm
              simpa using h9
            have hMstar : ∀ c ∈ U2.takeWhile (fun x => x ≠ '_'), c ≠ '*' := by
              intro c hcm
              refine hstarU2 c ?_
              rw [hU2]
              exact List.mem_append.mpr (Or.inl hcm)
            have htwU2 : (U2 ++ ['*', '*']).takeWhile (fun x => x ≠ '_') =
                U2.takeWhile (fun x => x ≠ '_') := by
              rw [List.takeWhile_append, if_neg]
              intro hlen
              have h9 := congrArg List.length hU2
              rw [← hlen] at h9
              simp at h9
            have hdwU2 : (U2 ++ ['*', '*']).dropWhile (fun x => x ≠ '_') =
                '_' :: (js ++ ['*', '*']) := by
              rw [List.dropWhile_append, hj]
              simp
            cases hM : U2.takeWhile (fun x => x ≠ '_') with
            | nil =>
                refine Or.inr (hid ?_)
                rw [List.cons_append, matchBI2, if_pos ⟨rfl, rfl, rfl⟩, htwU2, hM]
                simp
            | cons mh mt =>
                cases js with
                | nil =>
                    refine Or.inl ⟨U2.takeWhile (fun x => x ≠ '_'),
                      congrArg (List.cons '_') hU2, by rw [hM]; simp, hMne, hMstar, ?_⟩
                    rw [List.cons_append]
                    have hsome : matchBI2 ('*' :: '*' :: '_' :: (U2 ++ ['*', '*'])) =
                        some (str "<b><i>" ++ U2.takeWhile (fun x => x ≠ '_') ++ str "</i></b>",
                          (U2.takeWhile (fun x => x ≠ '_')).length + 5) := by
                      rw [matchBI2, if_pos ⟨rfl, rfl, rfl⟩, hdwU2]
                      rw [show ((U2 ++ ['*', '*']).takeWhile (fun x => x ≠ '_')).isEmpty = false from by
                        rw [htwU2, hM]; rfl]
                      simp only [Bool.false_eq_true, if_false, List.nil_append]
                      rw [htwU2]
                      simp
                    rw [subst_cons_some hsome]
                    have hlen9 : U2.length = (U2.takeWhile (fun x => x ≠ '_')).length + 1 := by
                      conv_lhs => rw [hU2]
                      simp
                    rw [show ('*' :: '_' :: (U2 ++ ['*', '*'])).drop
                        ((U2.takeWhile (fun x => x ≠ '_')).length + 5) = ([] : Str) from by
                      refine List.drop_eq_nil_of_le ?_
                      simp [hlen9]]
                    rw [subst_nil, List.append_nil]
                | cons x js2 =>
                    refine Or.inr (hid ?_)
                    have hxU2 : x ≠ '*' := by
                      refine hstarU2 x ?_
                      rw [hU2]
                      exact List.mem_append.mpr (Or.inr (by simp))
                    rw [List.cons_append, matchBI2, if_pos ⟨rfl, rfl, rfl⟩, hdwU2]
                    rw [show ((U2 ++ ['*', '*']).takeWhile (fun x => x ≠ '_')).isEmpty = false from by
                      rw [htwU2, hM]; rfl]
                    simp only [Bool.false_eq_true, if_false, List.cons_append]
                    cases js2 <;> simp [hxU2]

/-- A link match inside an asterisk-free region consumes at least the region
up to `]` and produces a nonempty asterisk-free replacement. -/
theorem matchLink_bound (dark : Bool) (mid : Str) (hstar : ∀ c ∈ mid, c ≠ '*')
    {repl : Str} {k : Nat}
    (h : matchLink dark (mid ++ ['*', '*']) = some (repl, k)) :
    k + 1 ≤ mid.length ∧ repl ≠ [] ∧ (∀ c ∈ repl, c ≠ '*') := by
  match mid, hstar with
  | [], _ => simp [matchLink] at h
  | c0 :: mid1, hstar2 =>
      have hstar1 : ∀ c ∈ mid1, c ≠ '*' :=
        fun c hc => hstar2 c (List.mem_cons_of_mem _ hc)
      rw [List.cons_append, matchLink] at h
      by_cases hc0 : c0 = '['
      case neg =>
        rw [if_neg hc0] at h
        exact absurd h (by simp)
      case pos =>
      subst hc0
      rw [if_pos rfl] at h
      by_cases hemp1 : ((mid1 ++ ['*', '*']).takeWhile (fun x => x ≠ ']')).isEmpty = true
      case pos =>
        rw [if_pos hemp1] at h
        exact absurd h (by simp)
      case neg =>
      rw [if_neg hemp1] at h
      cases hj1 : mid1.dropWhile (fun x => x ≠ ']') with
      | nil =>
          rw [List.dropWhile_append, hj1] at h
          simp at h
      | cons b bs =>
          have hb : b = ']' := by
            have h9 := dropWhile_head_false (fun x => x ≠ ']') mid1 b bs hj1
            simpa using h9
          subst hb
          have hdw1 : (mid1 ++ ['*', '*']).dropWhile (fun x => x ≠ ']') =
              ']' :: (bs ++ ['*', '*']) := by
            rw [List.dropWhile_append, hj1]
            simp
          have hmid1 : mid1 = mid1.takeWhile (fun x => x ≠ ']') ++ ']' :: bs := by
            rw [← hj1]
            exact (List.takeWhile_append_dropWhile _ mid1).symm
          have htw1 : (mid1 ++ ['*', '*']).takeWhile (fun x => x ≠ ']') =
              mid1.takeWhile (fun x => x ≠ ']') := by
            rw [List.takeWhile_append, if_neg]
            intro hlen
            have h9 := congrArg List.length hmid1
            rw [← hlen] at h9
            simp at h9
          rw [hdw1] at h
          cases bs with
          | nil => simp at h
          | cons b2 bs2 =>
              rw [List.cons_append] at h
              by_cases hb2 : b2 = '('
              case neg => simp [hb2] at h
              case pos =>
              subst hb2
              have h3 : (if ((bs2 ++ ['*', '*']).takeWhile (fun x => x ≠ ')')).isEmpty = true
                    then none
                  else
                    match (bs2 ++ ['*', '*']).dropWhile (fun x => x ≠ ')') with
                    | c3 :: _ =>
                        if c3 = ')' then
                          some (linkRepl dark
                              ((mid1 ++ ['*', '*']).takeWhile (fun x => x ≠ ']'))
                              ((bs2 ++ ['*', '*']).takeWhile (fun x => x ≠ ')')),
                            ((mid1 ++ ['*', '*']).takeWhile (fun x => x ≠ ']')).length +
                              ((bs2 ++ ['*', '*']).takeWhile (fun x => x ≠ ')')).length + 3)
                        else none
                    | [] => none) = some (repl, k) := h
              by_cases hemp2 : ((bs2 ++ ['*', '*']).takeWhile (fun x => x ≠ ')')).isEmpty = true
              case pos =>
                rw [if_pos hemp2] at h3
                exact absurd h3 (by simp)
              case neg =>
              rw [if_neg hemp2] at h3
              cases hj2 : bs2.dropWhile (fun x => x ≠ ')') with
              | nil =>
                  rw [show (bs2 ++ ['*', '*']).dropWhile (fun x => x ≠ ')') = [] from by
                    rw [List.dropWhile_append, hj2]
                    simp] at h3
                  simp at h3
              | cons e es =>
                  have he : e = ')' := by
                    have h9 := dropWhile_head_false (fun x => x ≠ ')') bs2 e es hj2
                    simpa using h9
                  subst he
                  have hdw2 : (bs2 ++ ['*', '*']).dropWhile (fun x => x ≠ ')') =
                      ')' :: (es ++ ['*', '*']) := by
                    rw [List.dropWhile_append, hj2]
                    simp
                  have hbs2 : bs2 = bs2.takeWhile (fun x => x ≠ ')') ++ ')' :: es := by
                    rw [← hj2]
                    exact (List.takeWhile_append_dropWhile _ bs2).symm
                  have htw2 : (bs2 ++ ['*', '*']).takeWhile (fun x => x ≠ ')') =
                      bs2.takeWhile (fun x => x ≠ ')') := by
                    rw [List.takeWhile_append, if_neg]
                    intro hlen
                    have h9 := congrArg List.length hbs2
                    rw [← hlen] at h9
                    simp at h9
                  rw [hdw2] at h3
                  have h4 : some (linkRepl dark
                        ((mid1 ++ ['*', '*']).takeWhile (fun x => x ≠ ']'))
                        ((bs2 ++ ['*', '*']).takeWhile (fun x => x ≠ ')')),
                      ((mid1 ++ ['*', '*']).takeWhile (fun x => x ≠ ']')).length +
                        ((bs2 ++ ['*', '*']).takeWhile (fun x => x ≠ ')')).length + 3) =
                      some (repl, k) := h3
                  rw [htw1, htw2] at h4
                  injection h4 with h5
                  injection h5 with hrepl hk
                  have hlab : ∀ c ∈ mid1.takeWhile (fun x => x ≠ ']'), c ≠ '*' := by
                    intro c hc
                    refine hstar1 c ?_
                    rw [hmid1]
                    exact List.mem_append.mpr (Or.inl hc)
                  have hbs2star : ∀ c ∈ bs2, c ≠ '*' := by
                    intro c hc
                    refine hstar1 c ?_
                    rw [hmid1]
                    refine List.mem_append.mpr (Or.inr ?_)
                    simp [hc]
                  have hurl : ∀ c ∈ bs2.takeWhile (fun x => x ≠ ')'), c ≠ '*' := by
                    intro c hc
                    refine hbs2star c ?_
                    rw [hbs2]
                    exact List.mem_append.mpr (Or.inl hc)
                  refine ⟨?_, ?_, ?_⟩
                  · have h9 := congrArg List.length hmid1
                    have h10 := congrArg List.length hbs2
                    simp only [List.length_append, List.length_cons] at h9 h10
                    simp only [List.length_cons]
                    omega
                  · rw [← hrepl]
                    simp [linkRepl, str]
                  · intro c hc
                    rw [← hrepl] at hc
                    simp only [linkRepl, List.mem_append] at hc
                    rcases hc with ((((((hc | hc) | hc) | hc) | hc) | hc) | hc)
                    · intro hq
                      rw [hq] at hc
                      exact absurd hc (by decide)
                    · exact hurl c hc
                    · intro hq
                      rw [hq] at hc
                      exact absurd hc (by decide)
                    · intro hq
                      rw [hq] at hc
                      cases dark <;> exact absurd hc (by decide)
                    · intro hq
                      rw [hq] at hc
                      exact absurd hc (by decide)
                    · exact hlab c hc
                    · intro hq
                      rw [hq] at hc
                      exact absurd hc (by decide)

/-- The link pass maps an asterisk-free body followed by `**` to an
asterisk-free body followed by `**`, preserving nonemptiness. -/
theorem subst_link_inner (dark : Bool) :
    ∀ n (mid : Str), mid.length ≤ n → (∀ c ∈ mid, c ≠ '*') →
      ∃ U, subst (matchLink dark) (mid ++ ['*', '*']) = U ++ ['*', '*'] ∧
        (∀ c ∈ U, c ≠ '*') ∧ (mid ≠ [] → U ≠ []) := by
  intro n
  induction n with
  | zero =>
      intro mid hlen hstar
      have hnil : mid = [] := List.eq_nil_of_length_eq_zero (Nat.le_zero.mp hlen)
      subst hnil
      refine ⟨[], ?_, by simp, by simp⟩
      rw [List.nil_append,
        subst_cons_none (matchLink_none_of_head (by decide)),
        subst_cons_none (matchLink_none_of_head (by decide)), subst_nil]
  | succ n ih =>
      intro mid hlen hstar
      match mid with
      | [] =>
          refine ⟨[], ?_, by simp, by simp⟩
          rw [List.nil_append,
            subst_cons_none (matchLink_none_of_head (by decide)),
            subst_cons_none (matchLink_none_of_head (by decide)), subst_nil]
      | c :: mid' =>
          simp only [List.length_cons] at hlen
          have hstar' : ∀ x ∈ mid', x ≠ '*' :=
            fun x hx => hstar x (List.mem_cons_of_mem _ hx)
          rw [List.cons_append]
          cases hm : matchLink dark (c :: (mid' ++ ['*', '*'])) with
          | none =>
              obtain ⟨U, hU, hUstar, hUne⟩ := ih mid' (by omega) hstar'
              refine ⟨c :: U, ?_, ?_, by simp⟩
              · rw [subst_cons_none hm, hU]
                rfl
              · intro x hx
                rcases List.mem_cons.mp hx with rfl | hx
                · exact hstar x (List.mem_cons_self x mid')
                · exact hUstar x hx
          | some v =>
              obtain ⟨repl, k⟩ := v
              have hb := matchLink_bound dark (c :: mid') hstar
                (by rw [List.cons_append]; exact hm)
              obtain ⟨hk, hrne, hrstar⟩ := hb
              simp only [List.length_cons] at hk
              have hdropk : (mid' ++ ['*', '*']).drop k = mid'.drop k ++ ['*', '*'] :=
                List.drop_append_of_le_length (by omega)
              have hdlen : (mid'.drop k).length ≤ n := by
                simp only [List.length_drop]
                omega
              obtain ⟨U, hU, hUstar, hUne⟩ :=
                ih (mid'.drop k) hdlen
                  (fun x hx => hstar' x (List.drop_subset k mid' hx))
              refine ⟨repl ++ U, ?_, ?_, fun _ => by simp [hrne]⟩
              · rw [subst_cons_some hm, hdropk, hU, List.append_assoc]
              · intro x hx
                rcases List.mem_append.mp hx with hx | hx
                · exact hrstar x hx
                · exact hUstar x hx

/-- The link pass keeps the `**...**` wrapping and the body asterisk-free. -/
theorem subst_link_star_wrapped (dark : Bool) (T : Str) (hne : T ≠ [])
    (hstar : ∀ c ∈ T, c ≠ '*') :
    ∃ U, subst (matchLink dark) ('*' :: '*' :: (T ++ ['*', '*'])) =
        '*' :: '*' :: (U ++ ['*', '*']) ∧
      (∀ c ∈ U, c ≠ '*') ∧ U ≠ [] := by
  obtain ⟨U, hU, hUstar, hUne⟩ := subst_link_inner dark T.length T le_rfl hstar
  refine ⟨U, ?_, hUstar, hUne hne⟩
  rw [subst_cons_none (matchLink_none_of_head (by decide)),
    subst_cons_none (matchLink_none_of_head (by decide)), hU]

/-- The bold pass rewrites `**U**` to `<b>U</b>` for a nonempty asterisk-free `U`. -/
theorem bold_star_wrapped (U : Str) (hne : U ≠ []) (h : ∀ c ∈ U, c ≠ '*') :
    subst matchBold ('*' :: '*' :: (U ++ ['*', '*'])) = str "<b>" ++ U ++ str "</b>" := by
  have hall : ∀ x ∈ U, (fun z => decide (z ≠ '*')) x = true := by
    intro x hx
    simpa using h x hx
  have htw : (U ++ ['*', '*']).takeWhile (fun x => x ≠ '*') = U := by
    rw [List.takeWhile_append, List.takeWhile_eq_self_iff.mpr hall]
    simp
  have hdw : (U ++ ['*', '*']).dropWhile (fun x => x ≠ '*') = ['*', '*'] := by
    rw [List.dropWhile_append, List.dropWhile_eq_nil_iff.mpr hall]
    simp
  have hsome : matchBold ('*' :: '*' :: (U ++ ['*', '*'])) =
      some (str "<b>" ++ U ++ str "</b>", U.length + 3) := by
    rw [matchBold, if_pos ⟨rfl, rfl⟩, hdw]
    rw [show ((U ++ ['*', '*']).takeWhile (fun x => x ≠ '*')).isEmpty = false from by
      rw [htw]
      match U, hne with
      | u :: U2, _ => rfl]
    have htw2 : List.takeWhile (fun x => !decide (x = '*')) (U ++ ['*', '*']) = U := by
      simpa using htw
    simp [htw2]
  rw [subst_cons_some hsome]
  rw [show ('*' :: (U ++ ['*', '*'])).drop (U.length + 3) = ([] : Str) from by
    refine List.drop_eq_nil_of_le ?_
    simp]
  rw [subst_nil, List.append_nil]

/-- An italic or code pass passes over a `<b>`-style three-character prefix. -/
theorem subst_delim_peel3 (d : Char) (pre post : Str) (w : Str)
    (h1 : '<' ≠ d) (h2 : 'b' ≠ d) (h3 : '>' ≠ d) :
    subst (matchDelim d pre post) ('<' :: 'b' :: '>' :: w) =
      '<' :: 'b' :: '>' :: subst (matchDelim d pre post) w := by
  rw [subst_cons_none (matchDelim_none_of_head h1),
    subst_cons_none (matchDelim_none_of_head h2),
    subst_cons_none (matchDelim_none_of_head h3)]

/-- The translator turns `**T**` (T nonempty, asterisk-free) into a string
that starts with `<b>`: the link, `_**...**_` and `**_..._**` passes keep the
wrapping (or produce `<b><i>...`), the bold pass then fires, and the italic
and code passes preserve the three-character prefix. -/
theorem clean_text_star_wrapped (dark : Bool) (T : Str) (hne : T ≠ [])
    (hstar : ∀ c ∈ T, c ≠ '*') :
    ∃ w, clean_text dark ('*' :: '*' :: (T ++ ['*', '*'])) = '<' :: 'b' :: '>' :: w := by
  obtain ⟨U, hU, hUstar, hUne⟩ := subst_link_star_wrapped dark T hne hstar
  simp only [clean_text]
  rw [hU, bi1_star_wrapped U hUstar]
  rcases bi2_star_wrapped U hUne hUstar with ⟨M, _, hMne, hMund, hMstar, hbi2⟩ | hbi2
  · rw [hbi2]
    have hnostar : hasChar '*' (str "<b><i>" ++ M ++ str "</i></b>") = false := by
      refine hasChar_eq_false ?_
      intro x hx
      rcases List.mem_append.mp hx with hx | hx
      · rcases List.mem_append.mp hx with hx | hx
        · intro hq
          rw [hq] at hx
          exact absurd hx (by decide)
        · exact hMstar x hx
      · intro hq
        rw [hq] at hx
        exact absurd hx (by decide)
    have hnound : hasChar '_' (str "<b><i>" ++ M ++ str "</i></b>") = false := by
      refine hasChar_eq_false ?_
      intro x hx
      rcases List.mem_append.mp hx with hx | hx
      · rcases List.mem_append.mp hx with hx | hx
        · intro hq
          rw [hq] at hx
          exact absurd hx (by decide)
        · exact hMund x hx
      · intro hq
        rw [hq] at hx
        exact absurd hx (by decide)
    rw [subst_id_of_no_trigger matchBold '*'
      (fun c t hc => matchBold_none_of_head hc) _ hnostar]
    rw [subst_id_of_no_trigger (matchDelim '_' (str "<i>") (str "</i>")) '_'
      (fun c t hc => matchDelim_none_of_head hc) _ hnound]
    rw [subst_id_of_no_trigger (matchDelim '*' (str "<i>") (str "</i>")) '*'
      (fun c t hc => matchDelim_none_of_head hc) _ hnostar]
    rw [show str "<b><i>" ++ M ++ str "</i></b>" =
      '<' :: 'b' :: '>' :: ('<' :: 'i' :: '>' :: (M ++ str "</i></b>")) from rfl]
    rw [subst_delim_peel3 btick _ _ _ (by decide) (by decide) (by decide)]
    exact ⟨_, rfl⟩
  · rw [hbi2, bold_star_wrapped U hUne hUstar]
    rw [show str "<b>" ++ U ++ str "</b>" =
      '<' :: 'b' :: '>' :: (U ++ str "</b>") from rfl]
    rw [subst_delim_peel3 '_' _ _ _ (by decide) (by decide) (by decide)]
    rw [subst_delim_peel3 '*' _ _ _ (by decide) (by decide) (by decide)]
    rw [subst_delim_peel3 btick _ _ _ (by decide) (by decide) (by decide)]
    exact ⟨_, rfl⟩

/-- A pass whose matcher rejects every suffix of `****` leaves `****` unchanged. -/
theorem subst_id_four_star (m : Str → Option (Str × Nat))
    (h1 : m ['*', '*', '*', '*'] = none) (h2 : m ['*', '*', '*'] = none)
    (h3 : m ['*', '*'] = none) (h4 : m ['*'] = none) :
    subst m ['*', '*', '*', '*'] = ['*', '*', '*', '*'] := by
  rw [subst_cons_none h1, subst_cons_none h2, subst_cons_none h3,
    subst_cons_none h4, subst_nil]

/-- Claim C10 counterexample: for the line `****` (the form `**T**` with the
empty, vacuously asterisk-free `T`) the translator is the identity, the output
starts with `**` and not `<b>`, the skills formatter takes the category-header
branch, and the education collector takes the institution_degree branch —
refuting the claim as stated for empty `T`. -/
theorem skills_education_bold_counterexample :
    clean_text false (str "****") = str "****" ∧
    pyStartsWith (clean_text false (str "****")) (str "<b>") = false ∧
    format_skills_section false [str "****"] =
      [Flowable.para (str "") (str "SkillCategory")] ∧
    eduCollect false [str "****"] [] = [[(EduKind.institution_degree, str "****")]] := by
  have hclean : clean_text false (str "****") = str "****" := by
    rw [show (str "****") = ['*', '*', '*', '*'] from rfl]
    simp only [clean_text]
    rw [subst_id_four_star (matchLink false) rfl rfl rfl rfl,
      subst_id_four_star matchBI1 rfl rfl rfl rfl,
      subst_id_four_star matchBI2 rfl rfl rfl rfl,
      subst_id_four_star matchBold rfl rfl rfl rfl,
      subst_id_four_star (matchDelim '_' (str "<i>") (str "</i>")) rfl rfl rfl rfl,
      subst_id_four_star (matchDelim '*' (str "<i>") (str "</i>")) rfl rfl rfl rfl,
      subst_id_four_star (matchDelim btick (str "<font name=\"Courier\">")
        (str "</font>")) rfl rfl rfl rfl]
  refine ⟨hclean, ?_, ?_, ?_⟩
  · rw [hclean]
    decide
  · simp only [format_skills_section, skillsGo, hclean]
    rfl
  · simp only [eduCollect, hclean]
    rfl

/-- Claim C10 (corrected): for every line `**T**` whose body `T` is NONEMPTY
and contains no `*`, the translated line starts with `<b>` and not `**`, so
the skills formatter renders it as a plain Skills paragraph (not a category
header) and the education collector classifies it as date_location (not
institution_degree). -/
theorem skills_education_bold_translated (dark : Bool) (T : Str) (hne : T ≠ [])
    (hstar : ∀ c ∈ T, c ≠ '*') :
    pyStartsWith (clean_text dark ('*' :: '*' :: (T ++ ['*', '*']))) (str "<b>") = true ∧
    pyStartsWith (clean_text dark ('*' :: '*' :: (T ++ ['*', '*']))) (str "**") = false ∧
    format_skills_section dark [('*' :: '*' :: (T ++ ['*', '*']))] =
      [Flowable.para (clean_text dark ('*' :: '*' :: (T ++ ['*', '*']))) (str "Skills")] ∧
    eduCollect dark [('*' :: '*' :: (T ++ ['*', '*']))] [] =
      [[(EduKind.date_location, clean_text dark ('*' :: '*' :: (T ++ ['*', '*'])))]] := by
  obtain ⟨w, hw⟩ := clean_text_star_wrapped dark T hne hstar
  have h1 : pyStartsWith (clean_text dark ('*' :: '*' :: (T ++ ['*', '*'])))
      (str "<b>") = true := by
    rw [hw]
    show pyStartsWith ('<' :: 'b' :: '>' :: w) ['<', 'b', '>'] = true
    simp [pyStartsWith]
  have h2 : pyStartsWith (clean_text dark ('*' :: '*' :: (T ++ ['*', '*'])))
      (str "**") = false := by
    rw [hw]
    show pyStartsWith ('<' :: 'b' :: '>' :: w) ['*', '*'] = false
    simp [pyStartsWith]
  have hni : (clean_text dark ('*' :: '*' :: (T ++ ['*', '*']))).isEmpty = false := by
    rw [hw]
    rfl
  have hnh : pyStartsWith (clean_text dark ('*' :: '*' :: (T ++ ['*', '*'])))
      (str "#") = false := by
    rw [hw]
    show pyStartsWith ('<' :: 'b' :: '>' :: w) ['#'] = false
    simp [pyStartsWith]
  refine ⟨h1, h2, ?_, ?_⟩
  · simp only [format_skills_section]
    simp [skillsGo, h2]
  · simp [eduCollect, h2, hni, hnh]

/-- Witness: the corrected C10 theorem applied to the concrete body `T`. -/
theorem skills_education_bold_translated_witness :
    (['T'] : Str) ≠ [] ∧
    pyStartsWith (clean_text false ('*' :: '*' :: ((['T'] : Str) ++ ['*', '*'])))
      (str "<b>") = true :=
  ⟨by decide, (skills_education_bold_translated false ['T'] (by decide) (by decide)).1⟩

end MD2PDF
